import Mathlib

/-!
# Verification of the duna chess-engine core

Shallow embedding of the board representation, attack generation and staged
move generation of the `duna` chess engine (sources under `src/`):
`move_generation/board_rep.rs`, `move_generation/movegen.rs`,
`search/zobrist_stack.rs`, `attacks.rs` and `util_macros.rs`.

Representation choices:
* `u64` bitboards are `Nat` values kept below `2^64`; shifts that can
  overflow are reduced `% 2^64`, matching `u64` semantics.
* Squares and piece kinds are `Nat` indices exactly as in the source
  (square 0 = A8, …, 63 = H1; knight=0, bishop=1, rook=2, queen=3, pawn=4,
  king=5, none=6).
* Rust arrays indexed by color / piece become Lean `List Nat` of length 2 / 6.
* Rust strings become `List Char`; fallible code returns `Option`, where
  `none` models an aborted run (a failed `unwrap`/`assert`/`debug_assert`).
* Code of this repository that is not under `src/` (`chess_move.rs`,
  `zobrist.rs`, `magic.rs` and the two pawn-push helpers of `attacks.rs`)
  is modelled from the spec; every such definition carries a doc comment
  starting with `Modelled from the spec:`.
-/

namespace Duna

/-- 64-bit mask, `u64::MAX`. -/
def MASK64 : Nat := 2 ^ 64 - 1

/-- Bitwise complement on `u64` (`!x` in Rust): for `x < 2^64` this is the
64-bit complement. -/
def compl64 (x : Nat) : Nat := MASK64 ^^^ x

/-- `Color` from `board_rep.rs` (`White = 0`, `Black = 1`). -/
inductive Color where
  | White
  | Black
deriving DecidableEq, Repr

namespace Color

/-- `Color::flip`. -/
def flip : Color → Color
  | White => Black
  | Black => White

/-- `Color::as_index`. -/
def as_index : Color → Nat
  | White => 0
  | Black => 1

/-- `Color::from_char` (`'w' | 'W'` white, `'b' | 'B'` black). -/
def from_char (ch : Char) : Option Color :=
  if ch = 'w' ∨ ch = 'W' then some White
  else if ch = 'b' ∨ ch = 'B' then some Black
  else none

/-- `Color::as_char`. -/
def as_char : Color → Char
  | White => 'w'
  | Black => 'b'

end Color

/-- `Direction` from `board_rep.rs`. -/
inductive Direction where
  | N | NE | E | SE | S | SW | W | NW
deriving DecidableEq, Repr

/-- `Bitboard::A_FILE`. -/
def A_FILE : Nat := 0x0101010101010101
/-- `Bitboard::H_FILE`. -/
def H_FILE : Nat := 0x8080808080808080
/-- `Bitboard::RANK_1`. -/
def RANK_1 : Nat := 0xff00000000000000
/-- `Bitboard::RANK_2`. -/
def RANK_2 : Nat := 0x00ff000000000000
/-- Rank 3 of the board (bits 40–47); used by the spec-modelled
double-push helper. -/
def RANK_3 : Nat := 0x0000ff0000000000
/-- `Bitboard::RANK_4`. -/
def RANK_4 : Nat := 0x000000ff00000000
/-- `Bitboard::RANK_5`. -/
def RANK_5 : Nat := 0x00000000ff000000
/-- Rank 6 of the board (bits 16–23); used by the spec-modelled
double-push helper. -/
def RANK_6 : Nat := 0x0000000000ff0000
/-- `Bitboard::RANK_7`. -/
def RANK_7 : Nat := 0x000000000000ff00
/-- `Bitboard::RANK_8`. -/
def RANK_8 : Nat := 0x00000000000000ff

/-- One step of the iterated lateral shift in `Bitboard::shift`
(the body of the `while` loop; `N`/`S` never reach it). -/
def shiftStep (dir : Direction) (data : Nat) : Nat :=
  match dir with
  | .NE => (data &&& compl64 H_FILE) >>> 7
  | .E  => ((data &&& compl64 H_FILE) <<< 1) % 2 ^ 64
  | .SE => ((data &&& compl64 H_FILE) <<< 9) % 2 ^ 64
  | .SW => ((data &&& compl64 A_FILE) <<< 7) % 2 ^ 64
  | .W  => (data &&& compl64 A_FILE) >>> 1
  | .NW => (data &&& compl64 A_FILE) >>> 9
  | _   => data

/-- Iterate a function `n` times. -/
def iterN : Nat → (Nat → Nat) → Nat → Nat
  | 0, _, x => x
  | n + 1, f, x => iterN n f (f x)

/-- `Bitboard::shift`: `N` and `S` are plain 64-bit shifts, the other six
directions iterate a wrap-masked one-square step `n` times. -/
def shiftD (bb : Nat) (dir : Direction) (n : Nat) : Nat :=
  match dir with
  | .N => bb >>> (8 * n)
  | .S => (bb <<< (8 * n)) % 2 ^ 64
  | d  => iterN n (shiftStep d) bb

/-- `u64::trailing_zeros`, by fuel-bounded halving; returns 64 on 0,
exactly as `u64::trailing_zeros(0)` does. -/
def ctzGo : Nat → Nat → Nat
  | 0, _ => 0
  | f + 1, n => if n % 2 = 1 then 0 else ctzGo f (n / 2) + 1

/-- `u64::trailing_zeros` (the `Bitboard::lsb` square). -/
def ctz (n : Nat) : Nat := ctzGo 64 n

/-- `Bitboard::pop_lsb`: returns the square of the lowest set bit together
with the bitboard with that bit cleared (`self.0 & (self.0 - 1)`).
The `debug_assert!(self.not_empty())` is modelled as `none` (abort) on the
empty bitboard. -/
def pop_lsb (bb : Nat) : Option (Nat × Nat) :=
  if bb = 0 then none else some (ctz bb, bb &&& (bb - 1))

/-- The ascending list of set-bit indices of a bitboard, in the order the
`bitloop!` macro of `util_macros.rs` visits them (repeated `pop_lsb`).
Fuel 64 suffices for any `u64`. -/
def bitsGo : Nat → Nat → List Nat
  | 0, _ => []
  | f + 1, bb => if bb = 0 then [] else ctz bb :: bitsGo f (bb &&& (bb - 1))

/-- Set-bit indices in `pop_lsb` order (the `bitloop!` iteration order). -/
def bitsList (bb : Nat) : List Nat := bitsGo 64 bb

/-! ## Leaper attack tables (`attacks.rs`) -/

namespace attacks

/-- `PAWN_ATTACKS` initialiser of `attacks.rs`: white pawns attack NE and NW,
black pawns SE and SW.  `attacks::pawn(sq, color)`. -/
def pawn (sq : Nat) (c : Color) : Nat :=
  let bb := 1 <<< sq
  match c with
  | .White => shiftD bb .NE 1 ||| shiftD bb .NW 1
  | .Black => shiftD bb .SE 1 ||| shiftD bb .SW 1

/-- `KNIGHT_ATTACKS` initialiser of `attacks.rs`. -/
def knight (sq : Nat) : Nat :=
  let bb := 1 <<< sq
  let vert := shiftD bb .N 2 ||| shiftD bb .S 2
  let horiz := shiftD bb .E 2 ||| shiftD bb .W 2
  shiftD vert .E 1 ||| shiftD vert .W 1 ||| shiftD horiz .N 1 ||| shiftD horiz .S 1

/-- `KING_ATTACKS` initialiser of `attacks.rs`. -/
def king (sq : Nat) : Nat :=
  let bb := 1 <<< sq
  shiftD bb .N 1 ||| shiftD bb .NE 1 ||| shiftD bb .E 1 ||| shiftD bb .SE 1 |||
  shiftD bb .S 1 ||| shiftD bb .SW 1 ||| shiftD bb .W 1 ||| shiftD bb .NW 1

/-- One ray of a sliding attack: walk from the current square in a fixed
direction (`next` yields the neighbouring square or `none` at the board
edge), include each square reached, and stop at the first blocker
(blocker square included).  Fuel 8 covers the whole board. -/
def rayWalk (occ : Nat) (next : Nat → Option Nat) : Nat → Nat → Nat
  | 0, _ => 0
  | f + 1, cur =>
    match next cur with
    | none => 0
    | some s =>
      let bb := 1 <<< s
      if occ &&& bb ≠ 0 then bb else bb ||| rayWalk occ next f s

/-- Northern neighbour (index −8), if any. -/
def nextN (sq : Nat) : Option Nat := if 8 ≤ sq then some (sq - 8) else none
/-- Southern neighbour (index +8), if any. -/
def nextS (sq : Nat) : Option Nat := if sq < 56 then some (sq + 8) else none
/-- Eastern neighbour (index +1), if any. -/
def nextE (sq : Nat) : Option Nat := if sq % 8 < 7 then some (sq + 1) else none
/-- Western neighbour (index −1), if any. -/
def nextW (sq : Nat) : Option Nat := if 0 < sq % 8 then some (sq - 1) else none
/-- North-eastern neighbour (index −7), if any. -/
def nextNE (sq : Nat) : Option Nat :=
  if 8 ≤ sq ∧ sq % 8 < 7 then some (sq - 7) else none
/-- North-western neighbour (index −9), if any. -/
def nextNW (sq : Nat) : Option Nat :=
  if 8 ≤ sq ∧ 0 < sq % 8 then some (sq - 9) else none
/-- South-eastern neighbour (index +9), if any. -/
def nextSE (sq : Nat) : Option Nat :=
  if sq < 56 ∧ sq % 8 < 7 then some (sq + 9) else none
/-- South-western neighbour (index +7), if any. -/
def nextSW (sq : Nat) : Option Nat :=
  if sq < 56 ∧ 0 < sq % 8 then some (sq + 7) else none

/-- Modelled from the spec: `magic.rs` is not under `src/`.  §4.3 specifies
that the magic lookup `rook(sq, occ)` returns the slow attack set obtained
by walking rays outward in the 4 rook directions until hitting a blocker or
the board edge, blocker square included. -/
def rook (sq occ : Nat) : Nat :=
  rayWalk occ nextN 8 sq ||| rayWalk occ nextS 8 sq |||
  rayWalk occ nextE 8 sq ||| rayWalk occ nextW 8 sq

/-- Modelled from the spec: `magic.rs` is not under `src/`.  §4.3 specifies
that the magic lookup `bishop(sq, occ)` returns the slow attack set obtained
by walking rays outward in the 4 diagonal directions until hitting a blocker
or the board edge, blocker square included. -/
def bishop (sq occ : Nat) : Nat :=
  rayWalk occ nextNE 8 sq ||| rayWalk occ nextSE 8 sq |||
  rayWalk occ nextSW 8 sq ||| rayWalk occ nextNW 8 sq

/-- `attacks::queen`: `bishop(sq, occ) | rook(sq, occ)`. -/
def queen (sq occ : Nat) : Nat := bishop sq occ ||| rook sq occ

/-- Modelled from the spec: `attacks::pawn_single_push` is not under `src/`.
§4.7: a pawn single push moves one square toward the enemy side onto an
empty square (`filter = empty squares`). -/
def pawn_single_push (pawns occ : Nat) (c : Color) : Nat :=
  match c with
  | .White => shiftD pawns .N 1 &&& compl64 occ
  | .Black => shiftD pawns .S 1 &&& compl64 occ

/-- Modelled from the spec: `attacks::pawn_double_push` is not under `src/`.
§4.7: for each pawn on its starting rank whose single-push and double-push
targets are both empty, the double push lands two squares ahead; the input
is the single-push target set. -/
def pawn_double_push (singles occ : Nat) (c : Color) : Nat :=
  match c with
  | .White => shiftD (singles &&& RANK_3) .N 1 &&& compl64 occ
  | .Black => shiftD (singles &&& RANK_6) .S 1 &&& compl64 occ

end attacks

/-! ## Pieces and squares -/

namespace Piece

/-- `Piece::KNIGHT` (= 0). -/
def KNIGHT : Nat := 0
/-- `Piece::BISHOP` (= 1). -/
def BISHOP : Nat := 1
/-- `Piece::ROOK` (= 2). -/
def ROOK : Nat := 2
/-- `Piece::QUEEN` (= 3). -/
def QUEEN : Nat := 3
/-- `Piece::PAWN` (= 4). -/
def PAWN : Nat := 4
/-- `Piece::KING` (= 5). -/
def KING : Nat := 5
/-- `Piece::NONE` (= 6). -/
def NONE : Nat := 6

/-- `Piece::from_char`. -/
def from_char (ch : Char) : Option Nat :=
  if ch = 'n' ∨ ch = 'N' then some KNIGHT
  else if ch = 'b' ∨ ch = 'B' then some BISHOP
  else if ch = 'r' ∨ ch = 'R' then some ROOK
  else if ch = 'q' ∨ ch = 'Q' then some QUEEN
  else if ch = 'p' ∨ ch = 'P' then some PAWN
  else if ch = 'k' ∨ ch = 'K' then some KING
  else none

/-- `Piece::as_char`: uppercase for White, lowercase for Black.
Returns `none` (abort) on an invalid piece, as the Rust `panic!` does. -/
def as_char (p : Nat) (c : Color) : Option Char :=
  let up : Option Char :=
    if p = KNIGHT then some 'N'
    else if p = BISHOP then some 'B'
    else if p = ROOK then some 'R'
    else if p = QUEEN then some 'Q'
    else if p = PAWN then some 'P'
    else if p = KING then some 'K'
    else none
  match up, c with
  | some ch, .Black => some ch.toLower
  | some ch, .White => some ch
  | none, _ => none

end Piece

namespace Square

/-- Square constants used by the castling tables (index 0 = A8 … 63 = H1). -/
def A8 : Nat := 0
/-- `Square::E8`. -/
def E8 : Nat := 4
/-- `Square::F8`. -/
def F8 : Nat := 5
/-- `Square::G8`. -/
def G8 : Nat := 6
/-- `Square::H8`. -/
def H8 : Nat := 7
/-- `Square::B8`. -/
def B8 : Nat := 1
/-- `Square::C8`. -/
def C8 : Nat := 2
/-- `Square::D8`. -/
def D8 : Nat := 3
/-- `Square::A1`. -/
def A1 : Nat := 56
/-- `Square::B1`. -/
def B1 : Nat := 57
/-- `Square::C1`. -/
def C1 : Nat := 58
/-- `Square::D1`. -/
def D1 : Nat := 59
/-- `Square::E1`. -/
def E1 : Nat := 60
/-- `Square::F1`. -/
def F1 : Nat := 61
/-- `Square::G1`. -/
def G1 : Nat := 62
/-- `Square::H1`. -/
def H1 : Nat := 63

/-- `Square::rank`: `7 - sq/8`. -/
def rank (sq : Nat) : Nat := 7 - sq / 8

/-- `Square::file`: `sq % 8`. -/
def file (sq : Nat) : Nat := sq % 8

/-- `Square::row_swap`: `sq ^ 0b1000`. -/
def row_swap (sq : Nat) : Nat := sq ^^^ 8

/-- `Square::double_push_sq`: `sq ^ 0b10000`. -/
def double_push_sq (sq : Nat) : Nat := sq ^^^ 16

/-- `Square::retreat`: move `count` ranks toward the own back rank. -/
def retreat (sq count : Nat) (c : Color) : Nat :=
  match c with
  | .White => sq + 8 * count
  | .Black => sq - 8 * count

/-- The UTF-8 byte length of a string — Rust `str::len()`, which
`Square::from_string` uses for its length check. -/
def utf8Len (s : List Char) : Nat := s.foldl (fun a c => a + c.utf8Size) 0

/-- `Square::from_string`: the source first rejects inputs whose UTF-8
byte length (`s.len()`) differs from two, returning `None`; it then reads
two characters with `chars.next().unwrap()`, never looking beyond the
second, so a single two-byte character passes the byte-length check and
aborts at the second `unwrap`.  The outer option models that abort
(`none`); the inner option is the function's own `Option<Square>` return:
a file letter (case-insensitive `a`–`h`) followed by a rank digit
`1`–`8` yields the square, anything else yields `some none`. -/
def from_string (s : List Char) : Option (Option Nat) :=
  if utf8Len s ≠ 2 then some none
  else
    match s with
    | fc :: rc :: _ =>
      let fc := fc.toLower
      if ('a'.toNat ≤ fc.toNat ∧ fc.toNat ≤ 'h'.toNat) ∧
         ('1'.toNat ≤ rc.toNat ∧ rc.toNat ≤ '8'.toNat) then
        let fileNum := fc.toNat - 'a'.toNat
        let rankNum := 7 - (rc.toNat - '1'.toNat)
        some (some (rankNum * 8 + fileNum))
      else some none
    | _ => none

/-- `Square::as_string`: file letter then rank digit. -/
def as_string (sq : Nat) : List Char :=
  [Char.ofNat (file sq + 'a'.toNat), Char.ofNat (rank sq + '1'.toNat)]

end Square

/-! ## Move encoding

Modelled from the spec: `chess_move.rs` is not under `src/`.  §3 fixes the
16-bit packed layout (low 6 bits = from-square, next 6 = to-square, top 4 =
flag), the flag numbering, and the derived predicates; §4.4 fixes the
constructors. -/

namespace Flag

/-- `Flag::NONE` (= 0). -/
def NONE : Nat := 0
/-- `Flag::CAPTURE` (= 1). -/
def CAPTURE : Nat := 1
/-- `Flag::DOUBLE_PUSH` (= 2). -/
def DOUBLE_PUSH : Nat := 2
/-- `Flag::KS_CASTLE` (= 3). -/
def KS_CASTLE : Nat := 3
/-- `Flag::QS_CASTLE` (= 4). -/
def QS_CASTLE : Nat := 4
/-- `Flag::EP` (= 5). -/
def EP : Nat := 5
/-- `Flag::KNIGHT_PROMO` (= 6). -/
def KNIGHT_PROMO : Nat := 6
/-- `Flag::BISHOP_PROMO` (= 7). -/
def BISHOP_PROMO : Nat := 7
/-- `Flag::ROOK_PROMO` (= 8). -/
def ROOK_PROMO : Nat := 8
/-- `Flag::QUEEN_PROMO` (= 9). -/
def QUEEN_PROMO : Nat := 9
/-- `Flag::KNIGHT_CAPTURE_PROMO` (= 10). -/
def KNIGHT_CAPTURE_PROMO : Nat := 10
/-- `Flag::BISHOP_CAPTURE_PROMO` (= 11). -/
def BISHOP_CAPTURE_PROMO : Nat := 11
/-- `Flag::ROOK_CAPTURE_PROMO` (= 12). -/
def ROOK_CAPTURE_PROMO : Nat := 12
/-- `Flag::QUEEN_CAPTURE_PROMO` (= 13). -/
def QUEEN_CAPTURE_PROMO : Nat := 13

end Flag

/-- Modelled from the spec (§3): a 16-bit packed move word. -/
structure Move where
  data : Nat
deriving DecidableEq, Repr

namespace Move

/-- Modelled from the spec (§4.4): the null move is the all-zero word. -/
def NULL : Move := ⟨0⟩

/-- Modelled from the spec (§3/§4.4): `Move::new(to, from, flag)` packs
from-square into the low 6 bits, to-square into the next 6, flag into the
top 4. -/
def new (toSq fromSq flag : Nat) : Move :=
  ⟨fromSq ||| (toSq <<< 6) ||| (flag <<< 12)⟩

/-- From-square (low 6 bits). -/
def fromSq (mv : Move) : Nat := mv.data &&& 63

/-- To-square (bits 6–11). -/
def toSq (mv : Move) : Nat := (mv.data >>> 6) &&& 63

/-- Flag (top 4 bits of the 16-bit word). -/
def flag (mv : Move) : Nat := (mv.data >>> 12) &&& 15

/-- Modelled from the spec (§3): `is_capture` iff flag ∈
{Capture, EP, *CapPromo}, implemented as a bitmask test. -/
def is_capture (mv : Move) : Bool :=
  (1 <<< mv.flag) &&& 0x3C22 ≠ 0

/-- Modelled from the spec (§3): `is_promo` iff flag ≥ KnightPromo. -/
def is_promo (mv : Move) : Bool := Flag.KNIGHT_PROMO ≤ mv.flag

/-- Modelled from the spec: a noisy move is a capture or a queen
promotion, with underpromotion captures explicitly quiet (§4.7, glossary);
the `movegen.rs` tests pin the noisy flags to
{Capture, EP, QueenPromo, QueenCapPromo}, a bitmask test. -/
def is_noisy (mv : Move) : Bool :=
  (1 <<< mv.flag) &&& 0x2222 ≠ 0

/-- Modelled from the spec (§3): `promo_piece(flag)` maps the four promo /
cap-promo flags to knight, bishop, rook, queen (the contiguous piece
ordering makes this `(flag - 6) % 4`). -/
def promo_piece (mv : Move) : Nat := (mv.flag - Flag.KNIGHT_PROMO) % 4

/-- Modelled from the spec (§4.4): `Move::ks_castle(king_sq)` moves the
king two files right. -/
def new_ks_castle (kingSq : Nat) : Move :=
  new (kingSq + 2) kingSq Flag.KS_CASTLE

/-- Modelled from the spec (§4.4): `Move::qs_castle(king_sq)` moves the
king two files left. -/
def new_qs_castle (kingSq : Nat) : Move :=
  new (kingSq - 2) kingSq Flag.QS_CASTLE

end Move

/-! ## Board state (`board_rep.rs`) -/

/-- `Board`: side to move, per-color occupancy (`all`, a length-2 list
indexed by `Color::as_index`), per-piece-kind occupancy (`pieces`, a
length-6 list indexed by the piece constants), optional en-passant square,
castle rights bits, and the halfmove clock. -/
structure Board where
  stm : Color
  all : List Nat
  pieces : List Nat
  ep_sq : Option Nat
  castle_rights : Nat
  halfmoves : Nat
deriving DecidableEq, Repr

namespace Board

/-- `Board::new()`: the empty board. -/
def new : Board :=
  { stm := Color.White
    all := [0, 0]
    pieces := [0, 0, 0, 0, 0, 0]
    ep_sq := none
    castle_rights := 0
    halfmoves := 0 }

/-- `all[color]`. -/
def allAt (b : Board) (c : Color) : Nat := b.all.getD c.as_index 0

/-- `pieces[piece]`. -/
def pieceAt (b : Board) (p : Nat) : Nat := b.pieces.getD p 0

/-- `Board::piece_bb(piece, color)`: `all[color] & pieces[piece]`. -/
def piece_bb (b : Board) (p : Nat) (c : Color) : Nat :=
  b.allAt c &&& b.pieceAt p

/-- `Board::occupied()`. -/
def occupied (b : Board) : Nat := b.allAt .White ||| b.allAt .Black

/-- `Board::us()`. -/
def us (b : Board) : Nat := b.allAt b.stm

/-- `Board::them()`. -/
def them (b : Board) : Nat := b.allAt b.stm.flip

/-- `Board::promotable_pawns()`: own pawns on rank 7 (White) / rank 2
(Black). -/
def promotable_pawns (b : Board) : Nat :=
  let pawns := b.piece_bb Piece.PAWN b.stm
  match b.stm with
  | .White => pawns &&& RANK_7
  | .Black => pawns &&& RANK_2

/-- `Board::piece_on_sq`: linear scan over the 6 piece bitboards in
`Piece::LIST` order; `Piece::NONE` when no bitboard holds the square. -/
def piece_on_sq (b : Board) (sq : Nat) : Nat :=
  let bit := 1 <<< sq
  if bit &&& b.pieceAt Piece.KNIGHT ≠ 0 then Piece.KNIGHT
  else if bit &&& b.pieceAt Piece.BISHOP ≠ 0 then Piece.BISHOP
  else if bit &&& b.pieceAt Piece.ROOK ≠ 0 then Piece.ROOK
  else if bit &&& b.pieceAt Piece.QUEEN ≠ 0 then Piece.QUEEN
  else if bit &&& b.pieceAt Piece.PAWN ≠ 0 then Piece.PAWN
  else if bit &&& b.pieceAt Piece.KING ≠ 0 then Piece.KING
  else Piece.NONE

/-- `Square::color`: the first color in `Color::LIST` whose occupancy
holds the square. -/
def colorOn (b : Board) (sq : Nat) : Option Color :=
  let bit := 1 <<< sq
  if bit &&& b.allAt .White ≠ 0 then some .White
  else if bit &&& b.allAt .Black ≠ 0 then some .Black
  else none

/-- `Board::king_sq()`: lsb of the own king bitboard. -/
def king_sq (b : Board) : Nat := ctz (b.piece_bb Piece.KING b.stm)

/-- `Square::is_attacked(board)`: true iff any enemy piece attacks the
square, computed by attack symmetry exactly as in the source. -/
def is_attacked (sq : Nat) (b : Board) : Bool :=
  let opp := b.stm.flip
  let occ := b.occupied
  let opp_king := b.piece_bb Piece.KING opp
  let opp_knights := b.piece_bb Piece.KNIGHT opp
  let opp_pawns := b.piece_bb Piece.PAWN opp
  let opp_bishops := b.piece_bb Piece.BISHOP opp
  let opp_rooks := b.piece_bb Piece.ROOK opp
  let opp_queens := b.piece_bb Piece.QUEEN opp
  let hv_sliders := opp_rooks ||| opp_queens
  let d_sliders := opp_bishops ||| opp_queens
  ((attacks.king sq &&& opp_king) |||
   (attacks.knight sq &&& opp_knights) |||
   (attacks.pawn sq b.stm &&& opp_pawns) |||
   (attacks.rook sq occ &&& hv_sliders) |||
   (attacks.bishop sq occ &&& d_sliders)) ≠ 0

/-- `Board::in_check()`. -/
def in_check (b : Board) : Bool := is_attacked b.king_sq b

end Board

/-! ## Castle rights (`board_rep.rs`) -/

namespace CastleRights

/-- `CastleRights::W_KS`. -/
def W_KS : Nat := 0b0001
/-- `CastleRights::W_QS`. -/
def W_QS : Nat := 0b0010
/-- `CastleRights::B_KS`. -/
def B_KS : Nat := 0b0100
/-- `CastleRights::B_QS`. -/
def B_QS : Nat := 0b1000

/-- `CastleRights::KS[color]`. -/
def KS (c : Color) : Nat :=
  match c with
  | .White => W_KS
  | .Black => B_KS

/-- `CastleRights::QS[color]`. -/
def QS (c : Color) : Nat :=
  match c with
  | .White => W_QS
  | .Black => B_QS

/-- `CastleRights::KS_SAFE[color]`: squares that must be unattacked for
king-side castling — E1, F1 for White and E8, F8 for Black. -/
def KS_SAFE (c : Color) : Nat :=
  match c with
  | .White => (1 <<< Square.E1) ||| (1 <<< Square.F1)
  | .Black => (1 <<< Square.E8) ||| (1 <<< Square.F8)

/-- `CastleRights::QS_SAFE[color]`: C1, D1, E1 for White and C8, D8, E8
for Black. -/
def QS_SAFE (c : Color) : Nat :=
  match c with
  | .White => (1 <<< Square.C1) ||| (1 <<< Square.D1) ||| (1 <<< Square.E1)
  | .Black => (1 <<< Square.C8) ||| (1 <<< Square.D8) ||| (1 <<< Square.E8)

/-- `CastleRights::KS_OCC[color]`: squares that must be empty — F1, G1 for
White and F8, G8 for Black. -/
def KS_OCC (c : Color) : Nat :=
  match c with
  | .White => (1 <<< Square.F1) ||| (1 <<< Square.G1)
  | .Black => (1 <<< Square.F8) ||| (1 <<< Square.G8)

/-- `CastleRights::QS_OCC[color]`: B1, C1, D1 for White and B8, C8, D8 for
Black. -/
def QS_OCC (c : Color) : Nat :=
  match c with
  | .White => (1 <<< Square.B1) ||| (1 <<< Square.C1) ||| (1 <<< Square.D1)
  | .Black => (1 <<< Square.B8) ||| (1 <<< Square.C8) ||| (1 <<< Square.D8)

/-- `CastleRights::UPDATE_MASKS[sq]`: all-ones mask except on the six
rights-clearing squares. -/
def updateMask (sq : Nat) : Nat :=
  if sq = Square.A1 then 0b1111 ^^^ W_QS
  else if sq = Square.A8 then 0b1111 ^^^ B_QS
  else if sq = Square.H1 then 0b1111 ^^^ W_KS
  else if sq = Square.H8 then 0b1111 ^^^ B_KS
  else if sq = Square.E1 then 0b1111 ^^^ (W_KS ||| W_QS)
  else if sq = Square.E8 then 0b1111 ^^^ (B_KS ||| B_QS)
  else 0b1111

/-- `CastleRights::update(mv)`: clear the bits of the masks associated to
the from- and to-squares. -/
def update (cr : Nat) (mv : Move) : Nat :=
  cr &&& updateMask mv.fromSq &&& updateMask mv.toSq

/-- `CastleRights::can_ks_castle(board)`: the right is held, the
`KS_OCC` squares are empty, and no `KS_SAFE` square is attacked
(the `bitloop!` over `KS_SAFE`). -/
def can_ks_castle (cr : Nat) (b : Board) : Bool :=
  if cr &&& KS b.stm = 0 then false
  else if KS_OCC b.stm &&& b.occupied ≠ 0 then false
  else !(bitsList (KS_SAFE b.stm)).any (fun sq => Board.is_attacked sq b)

/-- `CastleRights::can_qs_castle(board)`. -/
def can_qs_castle (cr : Nat) (b : Board) : Bool :=
  if cr &&& QS b.stm = 0 then false
  else if QS_OCC b.stm &&& b.occupied ≠ 0 then false
  else !(bitsList (QS_SAFE b.stm)).any (fun sq => Board.is_attacked sq b)

/-- `CastleRights::from_str`: collect the bits of the `K`, `Q`, `k`, `q`
characters, ignoring everything else. -/
def from_str (s : List Char) : Nat :=
  s.foldl
    (fun bits ch =>
      if ch = 'K' then bits ||| W_KS
      else if ch = 'Q' then bits ||| W_QS
      else if ch = 'k' then bits ||| B_KS
      else if ch = 'q' then bits ||| B_QS
      else bits)
    0

/-- `CastleRights::as_string`: the held rights in `K`, `Q`, `k`, `q`
order, or `-` when none. -/
def as_string (cr : Nat) : List Char :=
  let res :=
    (if cr &&& W_KS ≠ 0 then ['K'] else []) ++
    (if cr &&& W_QS ≠ 0 then ['Q'] else []) ++
    (if cr &&& B_KS ≠ 0 then ['k'] else []) ++
    (if cr &&& B_QS ≠ 0 then ['q'] else [])
  if res = [] then ['-'] else res

end CastleRights

namespace Board

/-- `Board::can_ks_castle()`. -/
def can_ks_castle (b : Board) : Bool :=
  CastleRights.can_ks_castle b.castle_rights b

/-- `Board::can_qs_castle()`. -/
def can_qs_castle (b : Board) : Bool :=
  CastleRights.can_qs_castle b.castle_rights b

/-- `Board::toggle(mask, piece, color)`: xor the mask into `all[color]`
and `pieces[piece]`. -/
def toggle (b : Board) (mask p : Nat) (c : Color) : Board :=
  { b with
    all := b.all.set c.as_index (b.allAt c ^^^ mask)
    pieces := b.pieces.set p (b.pieceAt p ^^^ mask) }

end Board

/-! ## Zobrist hashing -/

/-- Modelled from the spec: `zobrist.rs` is not under `src/`.  §3 requires
a fixed table of deterministic 64-bit keys; the concrete values are left to
the implementation, so a fixed injective-looking mixing constant is used. -/
def zkey (i : Nat) : Nat := ((i + 1) * 0x9E3779B97F4A7C15) % 2 ^ 64

/-- Modelled from the spec (§3): `ZobristHash::complete(board)` xors the
keys of every (piece, color, square) present, the side-to-move-is-Black
key, one key per held castle-rights bit, and the key of the ep-square file
when set. -/
def zobristComplete (b : Board) : Nat :=
  let h := (List.range 64).foldl
    (fun h sq =>
      let p := b.piece_on_sq sq
      match b.colorOn sq with
      | some c => if p ≠ Piece.NONE then h ^^^ zkey ((p * 2 + c.as_index) * 64 + sq) else h
      | none => h)
    0
  let h := if b.stm = Color.Black then h ^^^ zkey 768 else h
  let h := (List.range 4).foldl
    (fun h bit => if b.castle_rights &&& (1 <<< bit) ≠ 0 then h ^^^ zkey (769 + bit) else h)
    h
  match b.ep_sq with
  | some sq => h ^^^ zkey (773 + Square.file sq)
  | none => h

/-! ## Zobrist stack (`zobrist_stack.rs`) -/

/-- `ZobristStack`: the `zobrist_vec` of visited hashes, bottom of the
stack first. -/
abbrev ZobristStack := List Nat

namespace ZobristStack

/-- `ZobristStack::new(board)`. -/
def new (b : Board) : ZobristStack := [zobristComplete b]

/-- `ZobristStack::push`. -/
def push (s : ZobristStack) (h : Nat) : ZobristStack := List.append s [h]

end ZobristStack

/-! ## Move application (`board_rep.rs`) -/

namespace Board

/-- `Board::play_nullmove`: flip the side to move, clear the ep square,
push the new position's hash. -/
def play_nullmove (b : Board) (st : ZobristStack) : Board × ZobristStack :=
  let b' := { b with stm := b.stm.flip, ep_sq := none }
  (b', st.push (zobristComplete b'))

/-- The state mutation of `Board::try_play_move` up to (and excluding) the
`in_check` legality test: capture removal, mover toggle, ep clearing and
the per-flag effects. -/
def apply_move_core (b : Board) (mv : Move) : Board :=
  let stm := b.stm
  let to_sq := mv.toSq
  let from_sq := mv.fromSq
  let to_bb := 1 <<< to_sq
  let from_bb := 1 <<< from_sq
  let piece := b.piece_on_sq from_sq
  let b1 :=
    if mv.is_capture ∧ mv.flag ≠ Flag.EP then
      b.toggle to_bb (b.piece_on_sq to_sq) stm.flip
    else b
  let b2 := b1.toggle (to_bb ||| from_bb) piece stm
  let b3 := { b2 with ep_sq := none }
  if mv.flag = Flag.NONE ∨ mv.flag = Flag.CAPTURE then b3
  else if mv.flag = Flag.DOUBLE_PUSH then
    let ep := Square.row_swap to_sq
    let opp_pawns := b3.piece_bb Piece.PAWN stm.flip
    { b3 with
      ep_sq := if attacks.pawn ep stm &&& opp_pawns ≠ 0 then some ep else none }
  else if mv.flag = Flag.KS_CASTLE then
    b3.toggle ((1 <<< (from_sq + 1)) ||| (1 <<< (from_sq + 3))) Piece.ROOK stm
  else if mv.flag = Flag.QS_CASTLE then
    b3.toggle ((1 <<< (from_sq - 1)) ||| (1 <<< (from_sq - 4))) Piece.ROOK stm
  else if mv.flag = Flag.EP then
    b3.toggle (1 <<< Square.row_swap to_sq) Piece.PAWN stm.flip
  else
    (b3.toggle to_bb piece stm).toggle to_bb mv.promo_piece stm

/-- `Board::try_play_move(mv, zobrist_stack)`: apply the move; if the own
king is now attacked return `false` (board possibly partially mutated,
to be discarded), else flip the side to move, bump / reset the halfmove
clock, update castle rights, push the new hash and return `true`. -/
def try_play_move (b : Board) (mv : Move) (st : ZobristStack) :
    Board × ZobristStack × Bool :=
  let piece := b.piece_on_sq mv.fromSq
  let b1 := b.apply_move_core mv
  if b1.in_check then (b1, st, false)
  else
    let b2 := { b1 with stm := b1.stm.flip, halfmoves := b1.halfmoves + 1 }
    let b3 := { b2 with castle_rights := CastleRights.update b2.castle_rights mv }
    let b4 :=
      if piece = Piece.PAWN ∨ mv.is_capture then { b3 with halfmoves := 0 } else b3
    (b4, st.push (zobristComplete b4), true)

/-- `Board::fifty_move_draw()`: `halfmoves > 100`. -/
def fifty_move_draw (b : Board) : Bool := 100 < b.halfmoves

end Board

/-! ## Staged move generation (`movegen.rs`)

The 255-slot `[ScoredMove; 255]` buffer is modelled as the list of filled
slots (`limit` = its length); the score field is never read by the core
(`take` returns only `.mv`, scores stay 0), so moves are stored bare.
A board whose move count exceeded the 255-slot array would abort in Rust;
the theorems about the picker therefore carry the corresponding bound. -/

namespace MovePicker

/-- The moves the `into_moves!` macro adds for one piece bitboard: for
each `from` (in `bitloop!` order) and each `to` in
`moves_bb(from) ∩ filter`, one move with the stage flag. -/
def pieceMoves (bb : Nat) (att : Nat → Nat) (filter flag : Nat) : List Move :=
  (bitsList bb).flatMap
    (fun f => (bitsList (att f &&& filter)).map (fun t => Move.new t f flag))

/-- `MovePicker::gen_moves::<NOISY>`: the moves appended to the buffer, in
generation order — knights, bishops, rooks, queens, king, promotion
captures, promotion pushes, then (noisy) pawn captures and en passant or
(quiet) single pushes, double pushes and castling. -/
def gen_moves (b : Board) (noisy : Bool) : List Move :=
  let opps := b.them
  let occ := b.occupied
  let filter := if noisy then opps else compl64 occ
  let flag := if noisy then Flag.CAPTURE else Flag.NONE
  let stm := b.stm
  let knights := b.piece_bb Piece.KNIGHT stm
  let bishops := b.piece_bb Piece.BISHOP stm
  let rooks := b.piece_bb Piece.ROOK stm
  let queens := b.piece_bb Piece.QUEEN stm
  let king := b.piece_bb Piece.KING stm
  let pawns := b.piece_bb Piece.PAWN stm
  let promo_pawns := b.promotable_pawns
  let normal_pawns := pawns &&& compl64 promo_pawns
  pieceMoves knights attacks.knight filter flag ++
  pieceMoves bishops (fun f => attacks.bishop f occ) filter flag ++
  pieceMoves rooks (fun f => attacks.rook f occ) filter flag ++
  pieceMoves queens (fun f => attacks.queen f occ) filter flag ++
  pieceMoves king attacks.king filter flag ++
  (bitsList promo_pawns).flatMap
    (fun f =>
      (bitsList (attacks.pawn f stm &&& opps)).flatMap
        (fun t =>
          if noisy then [Move.new t f Flag.QUEEN_CAPTURE_PROMO]
          else
            [Move.new t f Flag.KNIGHT_CAPTURE_PROMO,
             Move.new t f Flag.BISHOP_CAPTURE_PROMO,
             Move.new t f Flag.ROOK_CAPTURE_PROMO])) ++
  (bitsList (attacks.pawn_single_push promo_pawns occ stm)).flatMap
    (fun t =>
      let f := Square.retreat t 1 stm
      if noisy then [Move.new t f Flag.QUEEN_PROMO]
      else
        [Move.new t f Flag.KNIGHT_PROMO,
         Move.new t f Flag.BISHOP_PROMO,
         Move.new t f Flag.ROOK_PROMO]) ++
  (if noisy then
    pieceMoves normal_pawns (fun f => attacks.pawn f stm) opps Flag.CAPTURE ++
    (match b.ep_sq with
     | some ep =>
       (bitsList (attacks.pawn ep stm.flip &&& pawns)).map
         (fun f => Move.new ep f Flag.EP)
     | none => [])
  else
    let single_pushs := attacks.pawn_single_push normal_pawns occ stm
    let double_pushes := attacks.pawn_double_push single_pushs occ stm
    (bitsList single_pushs).map
      (fun t => Move.new t (Square.retreat t 1 stm) flag) ++
    (bitsList double_pushes).map
      (fun t => Move.new t (Square.double_push_sq t) Flag.DOUBLE_PUSH) ++
    (if b.can_ks_castle then [Move.new_ks_castle b.king_sq] else []) ++
    (if b.can_qs_castle then [Move.new_qs_castle b.king_sq] else []))

end MovePicker

/-- `MovePicker`: stage (`START = 0`, `NOISY = 1`, `QUIET = 2`), cursor
`idx`, and the filled prefix of the buffer (`limit` = `buffer.length`). -/
structure MovePicker where
  buffer : List Move
  stage : Nat
  idx : Nat
deriving DecidableEq, Repr

namespace MovePicker

/-- `MovePicker::new()`. -/
def new : MovePicker := { buffer := [], stage := 0, idx := 0 }

/-- The `while stage_complete` loop of `MovePicker::pick`: advance the
stage while the cursor has reached the limit, generating the noisy moves
on entering `NOISY`, the quiet moves (when requested) on entering `QUIET`,
and returning `None` past `QUIET`; otherwise hand out `buffer[idx]` and
advance the cursor.  Three stage advances bound the loop, so fuel 4 is
exact. -/
def pickLoop : Nat → MovePicker → Board → Bool → Option Move × MovePicker
  | 0, mp, _, _ => (none, mp)
  | f + 1, mp, b, includeQuiets =>
    if mp.buffer.length ≤ mp.idx then
      let stage' := mp.stage + 1
      let mp' := { mp with stage := stage', idx := mp.buffer.length }
      if stage' = 1 then
        pickLoop f { mp' with buffer := mp'.buffer ++ gen_moves b true } b includeQuiets
      else if stage' = 2 then
        pickLoop f
          (if includeQuiets then
            { mp' with buffer := mp'.buffer ++ gen_moves b false }
          else mp')
          b includeQuiets
      else (none, mp')
    else
      (some (mp.buffer.getD mp.idx Move.NULL), { mp with idx := mp.idx + 1 })

/-- `MovePicker::pick::<INCLUDE_QUIETS>`. -/
def pick (mp : MovePicker) (b : Board) (includeQuiets : Bool) :
    Option Move × MovePicker :=
  pickLoop 4 mp b includeQuiets

/-- Repeatedly `pick` until `None`, collecting the returned moves. -/
def streamGo : Nat → MovePicker → Board → Bool → List Move
  | 0, _, _, _ => []
  | f + 1, mp, b, includeQuiets =>
    match pick mp b includeQuiets with
    | (none, _) => []
    | (some m, mp') => m :: streamGo f mp' b includeQuiets

/-- The full sequence of moves a fresh picker delivers on a board. -/
def pickStream (b : Board) (includeQuiets : Bool) : List Move :=
  streamGo
    ((gen_moves b true).length + (gen_moves b false).length + 1)
    new b includeQuiets

/-- Specification device for the picker state machine: the sequence of
moves still to be delivered from a given picker state — the unread part of
the buffer, followed by the stages not yet generated. -/
def pickerRemaining (b : Board) (includeQuiets : Bool) (mp : MovePicker) :
    List Move :=
  if mp.stage = 0 then
    mp.buffer.drop mp.idx ++ gen_moves b true ++
      (if includeQuiets then gen_moves b false else [])
  else if mp.stage = 1 then
    mp.buffer.drop mp.idx ++ (if includeQuiets then gen_moves b false else [])
  else if mp.stage = 2 then
    mp.buffer.drop mp.idx
  else []

end MovePicker

/-! ## FEN parsing and emission (`board_rep.rs`)

Strings are `List Char`; `none` models an aborted run (`unwrap`,
`assert_eq!`, or an out-of-range shift). -/

/-- `str::split_whitespace`: maximal whitespace-free words, empties
skipped.  The accumulator holds the word being read. -/
def splitWsGo : List Char → List Char → List (List Char)
  | [], acc => if acc.isEmpty then [] else [acc]
  | c :: rest, acc =>
    if c.isWhitespace then
      if acc.isEmpty then splitWsGo rest [] else acc :: splitWsGo rest []
    else splitWsGo rest (acc ++ [c])

/-- `str::split_whitespace`. -/
def splitWs (s : List Char) : List (List Char) := splitWsGo s []

/-- `char::to_digit(10)`. -/
def digitVal (c : Char) : Option Nat :=
  if '0'.toNat ≤ c.toNat ∧ c.toNat ≤ '9'.toNat then some (c.toNat - 48) else none

/-- `char::from_digit(d, 10)` for `d ≤ 9`. -/
def digitChar (d : Nat) : Char := Char.ofNat (48 + d)

/-- `u16::from_str` (`halfmoves.parse::<u16>()`): an optional `+` sign,
then one or more decimal digits, value at most `u16::MAX`; `none` models
the `unwrap` panic on anything else. -/
def parseU16 (s : List Char) : Option Nat :=
  let digits := match s with
    | '+' :: rest => rest
    | _ => s
  if digits.isEmpty then none
  else if digits.all (fun c => decide ('0'.toNat ≤ c.toNat ∧ c.toNat ≤ '9'.toNat)) then
    let v := digits.foldl (fun a c => a * 10 + (c.toNat - 48)) 0
    if v < 65536 then some v else none
  else none

/-- Decimal rendering of a number (`u16::to_string`), fuel-bounded
division by 10. -/
def natToDecGo : Nat → Nat → List Char
  | 0, _ => []
  | f + 1, n => if n < 10 then [digitChar n] else natToDecGo f (n / 10) ++ [digitChar (n % 10)]

/-- Decimal rendering of a number (`u16::to_string`). -/
def natToDecimal (n : Nat) : List Char := natToDecGo 32 n

namespace Board

/-- The piece-placement loop of `Board::from_fen`: the source splits the
grid on `'/'` and walks the rows' characters while a single square counter
`i` flows across the rows unchanged, which is the same as walking all
characters and skipping `'/'`.  A piece character sets the square's bit in
`all[is_lowercase]` and `pieces[piece]`; any other character must be a
digit (`to_digit(10).unwrap()`) and advances the counter.  A piece
character at `i ≥ 64` aborts (`1 << i` overflows), as does a non-digit. -/
def parseGrid : List Char → Board → Nat → Option (Board × Nat)
  | [], b, i => some (b, i)
  | c :: rest, b, i =>
    if c = '/' then parseGrid rest b i
    else
      match Piece.from_char c with
      | some p =>
        if i < 64 then
          let bit := 1 <<< i
          let cidx : Color := if c.isLower then .Black else .White
          let b' := { b with
            all := b.all.set cidx.as_index (b.allAt cidx ||| bit)
            pieces := b.pieces.set p (b.pieceAt p ||| bit) }
          parseGrid rest b' (i + 1)
        else none
      | none =>
        match digitVal c with
        | some d => parseGrid rest b (i + d)
        | none => none

/-- `Board::from_fen`: split into whitespace-separated fields (aborting
when fewer than five are present), parse the piece grid (aborting unless
exactly 64 squares are covered), the side to move, the castling rights,
the en-passant square and the halfmove clock. -/
def from_fen (s : List Char) : Option Board :=
  match splitWs s with
  | piece_grid :: stmF :: castling :: ep :: halfmovesF :: _ =>
    match parseGrid piece_grid Board.new 0 with
    | some (b, i) =>
      if i = 64 then
        match stmF with
        | stmc :: _ =>
          match Color.from_char stmc, parseU16 halfmovesF,
              Square.from_string ep with
          | some stm, some hm, some epv =>
            some { b with
              stm := stm
              castle_rights := CastleRights.from_str castling
              ep_sq := epv
              halfmoves := hm }
          | _, _, _ => none
        | [] => none
      else none
    | none => none
  | _ => none

/-- One rank of `Board::as_fen`: scan 8 squares, counting runs of empty
squares and flushing them as digits before each piece character and at the
end of the rank.  Aborts (`none`) when a piece has no color
(`sq.color(self).unwrap()`). -/
def emitRankGo (b : Board) : Nat → Nat → Nat → Option (List Char)
  | 0, _, empty => some (if 0 < empty then [digitChar empty] else [])
  | cols + 1, sq, empty =>
    let p := b.piece_on_sq sq
    if p = Piece.NONE then emitRankGo b cols (sq + 1) (empty + 1)
    else
      match b.colorOn sq with
      | none => none
      | some c =>
        match Piece.as_char p c with
        | none => none
        | some ch =>
          match emitRankGo b cols (sq + 1) 0 with
          | none => none
          | some rest =>
            some ((if 0 < empty then [digitChar empty] else []) ++ ch :: rest)

/-- The rank loop of `Board::as_fen`: emit each rank, appending `'/'`
after every rank whose final square counter is still below 64. -/
def emitGridGo (b : Board) : Nat → Nat → Option (List Char)
  | 0, _ => some []
  | ranks + 1, sq =>
    match emitRankGo b 8 sq 0 with
    | none => none
    | some rank =>
      match emitGridGo b ranks (sq + 8) with
      | none => none
      | some rest =>
        some (rank ++ (if sq + 8 < 64 then ['/'] else []) ++ rest)

/-- `Board::as_fen`: the piece grid, side to move, castling rights,
en-passant square and halfmove clock, terminated by the nominal `" 1"`
fullmove counter. -/
def as_fen (b : Board) : Option (List Char) :=
  match emitGridGo b 8 0 with
  | none => none
  | some grid =>
    some (grid ++
      ' ' :: b.stm.as_char ::
      ' ' :: (CastleRights.as_string b.castle_rights ++
      ' ' :: ((match b.ep_sq with
               | some ep => Square.as_string ep
               | none => ['-']) ++
      ' ' :: (natToDecimal b.halfmoves ++ [' ', '1']))))

end Board

/-- `START_FEN` from `board_rep.rs`. -/
def START_FEN : String := "rnbqkbnr/pppppppp/8/8/8/8/PPPPPPPP/RNBQKBNR w KQkq - 0 0"

/-! ## Predicates for the board-invariant and move-application claims -/

/-- The union over the six piece kinds of `pieces[p]`. -/
def unionPieces (b : Board) : Nat :=
  b.pieceAt 0 ||| b.pieceAt 1 ||| b.pieceAt 2 ||| b.pieceAt 3 |||
  b.pieceAt 4 ||| b.pieceAt 5

/-- The board representation invariant: well-sized bitboard lists, the two
color occupancies disjoint, the six piece-kind bitboards pairwise
disjoint, and the piece-kind union equal to the occupancy union.  The
spec's §3/§8 invariants are the disjointness and the union equation; the
other conjuncts make them inductive. -/
abbrev Inv (b : Board) : Prop :=
  b.all.length = 2 ∧ b.pieces.length = 6 ∧
  b.allAt .White &&& b.allAt .Black = 0 ∧
  (∀ p < 6, ∀ q < 6, p ≠ q → b.pieceAt p &&& b.pieceAt q = 0) ∧
  unionPieces b = b.allAt .White ||| b.allAt .Black

/-- The board invariant stated per square (proof device): the color
occupancies disagree, distinct piece kinds disagree, and a square carries
some piece kind exactly when it carries a color. -/
def InvP (b : Board) : Prop :=
  b.all.length = 2 ∧ b.pieces.length = 6 ∧
  ∀ i : Nat,
    (¬((b.allAt .White).testBit i = true ∧ (b.allAt .Black).testBit i = true)) ∧
    (∀ p, p < 6 → ∀ q, q < 6 → p ≠ q →
      ¬((b.pieceAt p).testBit i = true ∧ (b.pieceAt q).testBit i = true)) ∧
    ((∃ p, p < 6 ∧ (b.pieceAt p).testBit i = true) ↔
      ((b.allAt .White).testBit i = true ∨ (b.allAt .Black).testBit i = true))

/-- Pseudo-legality of a move on a board, as guaranteed for every move the
generator emits (glossary: "obeys piece movement rules"): the squares are
in range and distinct, a mover of the side to move stands on the
from-square, the to-square holds an enemy piece for a (non-ep) capture and
is empty otherwise, and the flag-specific pieces (castling rook,
en-passant victim, promoting pawn) are where the move application expects
them. -/
abbrev MoveOk (b : Board) (mv : Move) : Prop :=
  mv.fromSq < 64 ∧ mv.toSq < 64 ∧ mv.fromSq ≠ mv.toSq ∧
  b.piece_on_sq mv.fromSq < 6 ∧
  Nat.testBit (b.allAt b.stm) mv.fromSq = true ∧
  (if mv.is_capture ∧ mv.flag ≠ Flag.EP
   then Nat.testBit (b.allAt b.stm.flip) mv.toSq = true
   else Nat.testBit b.occupied mv.toSq = false) ∧
  (mv.flag = Flag.KS_CASTLE →
    mv.toSq = mv.fromSq + 2 ∧ mv.fromSq + 3 < 64 ∧
    Nat.testBit (b.allAt b.stm) (mv.fromSq + 3) = true ∧
    Nat.testBit (b.pieceAt Piece.ROOK) (mv.fromSq + 3) = true ∧
    Nat.testBit b.occupied (mv.fromSq + 1) = false) ∧
  (mv.flag = Flag.QS_CASTLE →
    4 ≤ mv.fromSq ∧ mv.toSq + 2 = mv.fromSq ∧
    Nat.testBit (b.allAt b.stm) (mv.fromSq - 4) = true ∧
    Nat.testBit (b.pieceAt Piece.ROOK) (mv.fromSq - 4) = true ∧
    Nat.testBit b.occupied (mv.fromSq - 1) = false) ∧
  (mv.flag = Flag.EP →
    b.piece_on_sq mv.fromSq = Piece.PAWN ∧
    Square.row_swap mv.toSq ≠ mv.fromSq ∧
    Nat.testBit (b.allAt b.stm.flip) (Square.row_swap mv.toSq) = true ∧
    Nat.testBit (b.pieceAt Piece.PAWN) (Square.row_swap mv.toSq) = true) ∧
  (mv.is_promo = true → b.piece_on_sq mv.fromSq = Piece.PAWN)

/-- Boards reachable from a parsed FEN by successful `try_play_move`
applications of pseudo-legal moves and by null moves. -/
inductive Reachable : Board → Prop where
  | root (fen : List Char) (b : Board) :
      Board.from_fen fen = some b → Reachable b
  | step (b : Board) (mv : Move) (st : ZobristStack) (b' : Board)
      (st' : ZobristStack) : Reachable b → MoveOk b mv →
      b.try_play_move mv st = (b', st', true) → Reachable b'
  | nullstep (b : Board) (st : ZobristStack) :
      Reachable b → Reachable (b.play_nullmove st).1

/-- The parsed start position (used by concrete instantiations). -/
def startBoard : Board := (Board.from_fen START_FEN.toList).getD Board.new

/-- A concrete position: White king E1 and rook H1 with the white
king-side castling right, Black king A8 and rook G4, White to move.
F1 and G1 are empty, G1 is attacked by the G4 rook, E1 and F1 are not
attacked. -/
def ksCexBoard : Board :=
  { stm := Color.White
    all := [(1 <<< 60) ||| (1 <<< 63), (1 <<< 0) ||| (1 <<< 38)]
    pieces := [0, 0, (1 <<< 63) ||| (1 <<< 38), 0, 0, (1 <<< 60) ||| (1 <<< 0)]
    ep_sq := none
    castle_rights := CastleRights.W_KS
    halfmoves := 0 }

/-- The move `e2e4` (from E2 = 52 to E4 = 36) with the double-push flag. -/
def moveE2E4 : Move := Move.new 36 52 Flag.DOUBLE_PUSH

/-! ## Canonical FEN validity

`Board::from_fen` assumes a well-formed FEN string; the round-trip claim
quantifies over valid FEN input, so validity is spelled out here as the
canonical FEN grammar: eight rank segments of piece letters and maximal
(hence never adjacent) empty-run digits `1`–`8` weighing eight squares
each, a `w`/`b` side, castle rights as a subsequence of `KQkq` or `-`, a
lowercase en-passant square or `-`, a canonical decimal halfmove clock in
`u16` range, and a whitespace-free fullmove field. -/

/-- A character accepted by `Piece::from_char`. -/
def pieceChar (c : Char) : Bool := (Piece.from_char c).isSome

/-- An empty-run digit `1`–`8`. -/
def rankDigit (c : Char) : Bool :=
  decide ('1'.toNat ≤ c.toNat ∧ c.toNat ≤ '8'.toNat)

/-- Number of squares covered by one rank segment. -/
def segWeight : List Char → Nat
  | [] => 0
  | c :: rest => (if pieceChar c then 1 else (digitVal c).getD 0) + segWeight rest

/-- A canonical rank segment: piece characters and digits `1`–`8`, a digit
never followed by another digit (empty runs are coalesced maximally). -/
def validSeg : List Char → Bool
  | [] => true
  | c :: rest =>
    if pieceChar c then validSeg rest
    else
      rankDigit c &&
      (match rest with
       | [] => true
       | c' :: _ => pieceChar c') &&
      validSeg rest

/-- The canonical castling field: the held rights in `K`, `Q`, `k`, `q`
order, or `-` for none — the sixteen strings `CastleRights::as_string` can
produce. -/
def validCastleField (s : List Char) : Bool :=
  decide (s ∈ [['-'], ['K'], ['Q'], ['K', 'Q'], ['k'], ['K', 'k'],
    ['Q', 'k'], ['K', 'Q', 'k'], ['q'], ['K', 'q'], ['Q', 'q'],
    ['K', 'Q', 'q'], ['k', 'q'], ['K', 'k', 'q'], ['Q', 'k', 'q'],
    ['K', 'Q', 'k', 'q']])

/-- The canonical en-passant field: `-` or a lowercase file letter
followed by a rank digit. -/
def validEpField : List Char → Bool
  | ['-'] => true
  | [fc, rc] =>
    decide ('a'.toNat ≤ fc.toNat ∧ fc.toNat ≤ 'h'.toNat) &&
    decide ('1'.toNat ≤ rc.toNat ∧ rc.toNat ≤ '8'.toNat)
  | _ => false

/-- Decimal value of a digit string, as `parse::<u16>` accumulates it. -/
def decValue (s : List Char) : Nat :=
  s.foldl (fun a c => a * 10 + (c.toNat - 48)) 0

/-- The canonical halfmove field: decimal digits with no redundant leading
zero, value within `u16` range. -/
def validHalfField : List Char → Bool
  | [] => false
  | c :: rest =>
    (c :: rest).all (fun ch => decide ('0'.toNat ≤ ch.toNat ∧ ch.toNat ≤ '9'.toNat)) &&
    (decide (c ≠ '0') || rest.isEmpty) &&
    decide (decValue (c :: rest) < 65536)

/-- The piece grid: rank segments joined by `/`. -/
def joinSlash : List (List Char) → List Char
  | [] => []
  | [s] => s
  | s :: rest => s ++ '/' :: joinSlash rest

/-- Proof device: the squares `[sq, sq + segWeight seg)` of `b` hold
exactly the pieces the rank segment `seg` describes. -/
def CellsMatch (b : Board) : Nat → List Char → Prop
  | _, [] => True
  | sq, c :: rest =>
    match Piece.from_char c with
    | some p =>
      b.piece_on_sq sq = p ∧
      b.colorOn sq = some (if c.isLower then Color.Black else Color.White) ∧
      CellsMatch b (sq + 1) rest
    | none =>
      (∀ j, j < (digitVal c).getD 0 → b.piece_on_sq (sq + j) = Piece.NONE) ∧
      CellsMatch b (sq + (digitVal c).getD 0) rest

/-- Proof device: successive rank segments match the cells of `b` from
`sq` on, eight squares apart. -/
def CellsRows (b : Board) : Nat → List (List Char) → Prop
  | _, [] => True
  | sq, s :: rest => CellsMatch b sq s ∧ CellsRows b (sq + 8) rest

/-- Proof device: two boards agree on every bitboard at bit `k`. -/
def BitsAgree (b b' : Board) (k : Nat) : Prop :=
  (∀ c : Color, (b'.allAt c).testBit k = (b.allAt c).testBit k) ∧
  ∀ q, q < 6 → (b'.pieceAt q).testBit k = (b.pieceAt q).testBit k

/-! # Theorems -/

/-! ## Bitboard helper lemmas -/

theorem land_eq_zero_iff {a b : Nat} :
    a &&& b = 0 ↔ ∀ i, ¬(a.testBit i = true ∧ b.testBit i = true) := by
  constructor
  · intro h i ⟨ha, hb⟩
    have : (a &&& b).testBit i = true := by
      simp [Nat.testBit_and, ha, hb]
    rw [h] at this
    simp at this
  · intro h
    apply Nat.eq_of_testBit_eq
    intro i
    simp only [Nat.zero_testBit, Nat.testBit_and]
    rcases Bool.eq_false_or_eq_true (a.testBit i) with ha | ha
    · rcases Bool.eq_false_or_eq_true (b.testBit i) with hb | hb
      · exact absurd ⟨ha, hb⟩ (h i)
      · simp [hb]
    · simp [ha]


theorem land_testBit_ne_zero {a b : Nat} (i : Nat) (ha : a.testBit i = true)
    (hb : b.testBit i = true) : a &&& b ≠ 0 := by
  intro h
  exact land_eq_zero_iff.mp h i ⟨ha, hb⟩

/-! ## `trailing_zeros` and `pop_lsb` -/

theorem ctzGo_congr : ∀ f g n, n ≠ 0 → n < 2 ^ f → n < 2 ^ g →
    ctzGo f n = ctzGo g n := by
  intro f
  induction f with
  | zero => intro g n hn hf _; simp at hf; omega
  | succ f ih =>
    intro g n hn hf hg
    match g with
    | 0 => simp at hg; omega
    | g + 1 =>
      show ctzGo (f + 1) n = ctzGo (g + 1) n
      simp only [ctzGo]
      by_cases hodd : n % 2 = 1
      · simp [hodd]
      · simp only [hodd, if_false]
        have hhalf : n / 2 ≠ 0 := by omega
        have h2f : n / 2 < 2 ^ f := by
          have : (2 : Nat) ^ (f + 1) = 2 * 2 ^ f := by ring
          omega
        have h2g : n / 2 < 2 ^ g := by
          have : (2 : Nat) ^ (g + 1) = 2 * 2 ^ g := by ring
          omega
        rw [ih g (n / 2) hhalf h2f h2g]

theorem ctzGo_spec : ∀ f n, n ≠ 0 → n < 2 ^ f →
    n.testBit (ctzGo f n) = true ∧ ∀ j, j < ctzGo f n → n.testBit j = false := by
  intro f
  induction f with
  | zero => intro n hn hf; simp at hf; omega
  | succ f ih =>
    intro n hn hf
    simp only [ctzGo]
    by_cases hodd : n % 2 = 1
    · simp [hodd]
    · simp only [hodd, if_false]
      have hhalf : n / 2 ≠ 0 := by omega
      have h2f : n / 2 < 2 ^ f := by
        have : (2 : Nat) ^ (f + 1) = 2 * 2 ^ f := by ring
        omega
      obtain ⟨hbit, hlow⟩ := ih (n / 2) hhalf h2f
      refine ⟨?_, ?_⟩
      · rw [Nat.testBit_add_one]; exact hbit
      · intro j hj
        match j with
        | 0 => simp [Nat.testBit_zero]; omega
        | j + 1 =>
          rw [Nat.testBit_add_one]
          exact hlow j (by omega)

theorem ctz_spec {n : Nat} (hn : n ≠ 0) (hlt : n < 2 ^ 64) :
    n.testBit (ctz n) = true ∧ (∀ j, j < ctz n → n.testBit j = false) ∧
    ctz n < 64 := by
  obtain ⟨hbit, hlow⟩ := ctzGo_spec 64 n hn hlt
  refine ⟨hbit, hlow, ?_⟩
  show ctzGo 64 n < 64
  by_contra hge
  push_neg at hge
  have h1 : (2 : Nat) ^ 64 ≤ 2 ^ ctzGo 64 n := Nat.pow_le_pow_right (by omega) hge
  have h2 : 2 ^ ctzGo 64 n ≤ n := Nat.testBit_implies_ge hbit
  omega

theorem ctz_even {n : Nat} (hn : n ≠ 0) (he : n % 2 = 0) (hlt : n < 2 ^ 64) :
    ctz n = ctz (n / 2) + 1 := by
  show ctzGo 64 n = ctzGo 64 (n / 2) + 1
  have h1 : ctzGo 64 n = ctzGo 63 (n / 2) + 1 := by
    show ctzGo (63 + 1) n = ctzGo 63 (n / 2) + 1
    simp only [ctzGo]
    have : ¬(n % 2 = 1) := by omega
    simp [this]
  rw [h1, ctzGo_congr 63 64 (n / 2) (by omega) (by omega) (by omega)]

theorem ctz_odd {n : Nat} (ho : n % 2 = 1) : ctz n = 0 := by
  show ctzGo 64 n = 0
  show ctzGo (63 + 1) n = 0
  simp [ctzGo, ho]

theorem reset_lsb_testBit {n : Nat} (hn : n ≠ 0) (hlt : n < 2 ^ 64) :
    ∀ i, (n &&& (n - 1)).testBit i = (n.testBit i && decide (i ≠ ctz n)) := by
  induction n using Nat.strong_induction_on with
  | _ n ih =>
    intro i
    by_cases hodd : n % 2 = 1
    · rw [ctz_odd hodd]
      match i with
      | 0 =>
        have h1 : (n - 1) % 2 = 0 := by omega
        simp [Nat.testBit_and, Nat.testBit_zero, h1]
      | i + 1 =>
        have h2 : (n - 1) / 2 = n / 2 := by omega
        simp only [Nat.testBit_add_one, Nat.and_div_two, h2, Nat.and_self]
        simp
    · have he : n % 2 = 0 := by omega
      have hhalf : n / 2 ≠ 0 := by omega
      have hhlt : n / 2 < 2 ^ 64 := by omega
      rw [ctz_even hn he hlt]
      match i with
      | 0 =>
        simp [Nat.testBit_and, Nat.testBit_zero, he]
      | i + 1 =>
        have h2 : (n - 1) / 2 = n / 2 - 1 := by omega
        simp only [Nat.testBit_add_one, Nat.and_div_two, h2]
        rw [ih (n / 2) (by omega) hhalf hhlt i]
        have hne : (decide (i ≠ ctz (n / 2))) = (decide (i + 1 ≠ ctz (n / 2) + 1)) := by
          simp
        rw [hne]

/-- C10: `pop_lsb` on a non-empty bitboard returns the square of the
lowest set bit — an index in [0, 63] — and the bitboard with exactly that
bit cleared; on the empty bitboard it panics (modelled as `none`), so an
index outside [0, 63] is never materialized by it. -/
theorem pop_lsb_spec (bb : Nat) (hne : bb ≠ 0) (hlt : bb < 2 ^ 64) :
    (∃ sq bb', pop_lsb bb = some (sq, bb') ∧ sq < 64 ∧
      bb.testBit sq = true ∧ (∀ j, j < sq → bb.testBit j = false) ∧
      ∀ i, bb'.testBit i = (bb.testBit i && decide (i ≠ sq))) ∧
    pop_lsb 0 = none := by
  obtain ⟨hbit, hlow, hsz⟩ := ctz_spec hne hlt
  refine ⟨⟨ctz bb, bb &&& (bb - 1), ?_, hsz, hbit, hlow, reset_lsb_testBit hne hlt⟩, rfl⟩
  simp [pop_lsb, hne]

/-- Witness for C10 at `bb = 12`. -/
theorem pop_lsb_spec_witness :
    (∃ sq bb', pop_lsb 12 = some (sq, bb') ∧ sq < 64 ∧
      Nat.testBit 12 sq = true ∧ (∀ j, j < sq → Nat.testBit 12 j = false) ∧
      ∀ i, bb'.testBit i = (Nat.testBit 12 i && decide (i ≠ sq))) ∧
    pop_lsb 0 = none :=
  pop_lsb_spec 12 (by decide) (by norm_num)

/-- C9: `play_nullmove` flips the side to move, clears the en-passant
square, and pushes the new position's hash onto the stack, leaving the
occupancy bitboards, piece bitboards, castle rights and halfmove clock
unchanged. -/
theorem play_nullmove_frame (b : Board) (st : ZobristStack) :
    (b.play_nullmove st).1.stm = b.stm.flip ∧
    (b.play_nullmove st).1.ep_sq = none ∧
    (b.play_nullmove st).1.all = b.all ∧
    (b.play_nullmove st).1.pieces = b.pieces ∧
    (b.play_nullmove st).1.castle_rights = b.castle_rights ∧
    (b.play_nullmove st).1.halfmoves = b.halfmoves ∧
    (b.play_nullmove st).2 =
      List.append st [zobristComplete (b.play_nullmove st).1] :=
  ⟨rfl, rfl, rfl, rfl, rfl, rfl, rfl⟩

/-! ## Twofold repetition (C2) -/

theorem bitsList_ks_safe_white :
    bitsList (CastleRights.KS_SAFE Color.White) = [Square.E1, Square.F1] := by
  decide

theorem bitsList_ks_safe_black :
    bitsList (CastleRights.KS_SAFE Color.Black) = [Square.E8, Square.F8] := by
  decide

/-- C1 (amended): `can_ks_castle` returns true iff the king-side right is
held, the two `KS_OCC` squares (F1, G1 for White; F8, G8 for Black) are
empty, and neither of the two `KS_SAFE` squares — E1 and F1 for White, E8
and F8 for Black — is attacked.  The landing square G1/G8 is *not* part of
the attack test; castling into check is rejected later by
`try_play_move`'s own-king check. -/
theorem can_ks_castle_char (b : Board) :
    b.can_ks_castle = true ↔
      (b.castle_rights &&& CastleRights.KS b.stm ≠ 0 ∧
       CastleRights.KS_OCC b.stm &&& b.occupied = 0 ∧
       Board.is_attacked
         (if b.stm = Color.White then Square.E1 else Square.E8) b = false ∧
       Board.is_attacked
         (if b.stm = Color.White then Square.F1 else Square.F8) b = false) := by
  cases hstm : b.stm with
  | White =>
    simp only [Board.can_ks_castle, CastleRights.can_ks_castle, hstm,
      bitsList_ks_safe_white, if_true, reduceCtorEq]
    by_cases h1 : b.castle_rights &&& CastleRights.KS Color.White = 0
    · simp [h1]
    · by_cases h2 : CastleRights.KS_OCC Color.White &&& b.occupied = 0
      · simp [h1, h2]
      · simp [h1, h2]
  | Black =>
    simp only [Board.can_ks_castle, CastleRights.can_ks_castle, hstm,
      bitsList_ks_safe_black, reduceCtorEq, if_false]
    by_cases h1 : b.castle_rights &&& CastleRights.KS Color.Black = 0
    · simp [h1]
    · by_cases h2 : CastleRights.KS_OCC Color.Black &&& b.occupied = 0
      · simp [h1, h2]
      · simp [h1, h2]

/-- C1 counterexample: on `ksCexBoard` (White Ke1 and Rh1 with the
king-side right, Black Ka8 and Rg4) the right is held, F1 and G1 are
empty, and G1 is attacked by the G4 rook, yet `can_ks_castle` returns
true — the claimed "return false whenever G1 is attacked" fails. -/
theorem can_ks_castle_cex :
    ksCexBoard.castle_rights &&& CastleRights.KS ksCexBoard.stm ≠ 0 ∧
    ksCexBoard.occupied &&& ((1 <<< Square.F1) ||| (1 <<< Square.G1)) = 0 ∧
    Board.is_attacked Square.G1 ksCexBoard = true ∧
    ksCexBoard.can_ks_castle = true := by
  refine ⟨by decide, by decide, by decide, by decide⟩

/-! ## Board-mutation helper lemmas -/

theorem getD_set_self {l : List Nat} {i : Nat} {x : Nat} (h : i < l.length) :
    (l.set i x).getD i 0 = x := by
  simp [List.getD_eq_getElem?_getD, List.getElem?_set_self h]

theorem getD_set_ne {l : List Nat} {i j : Nat} {x : Nat} (h : i ≠ j) :
    (l.set i x).getD j 0 = l.getD j 0 := by
  simp [List.getD_eq_getElem?_getD, List.getElem?_set_ne h]

theorem allAt_toggle (b : Board) (m p : Nat) (c c' : Color)
    (hlen : b.all.length = 2) :
    (b.toggle m p c).allAt c' = if c' = c then b.allAt c ^^^ m else b.allAt c' := by
  cases c <;> cases c' <;>
    simp [Board.toggle, Board.allAt, Color.as_index, getD_set_self, getD_set_ne, hlen]

theorem pieceAt_toggle (b : Board) (m p q : Nat) (c : Color)
    (hlen : b.pieces.length = 6) (hp : p < 6) :
    (b.toggle m p c).pieceAt q = if q = p then b.pieceAt p ^^^ m else b.pieceAt q := by
  show (b.pieces.set p (b.pieceAt p ^^^ m)).getD q 0 = _
  by_cases hq : q = p
  · subst hq
    rw [getD_set_self (by rw [hlen]; exact hp), if_pos rfl]
  · rw [getD_set_ne (fun h => hq h.symm), if_neg hq]
    rfl

theorem toggle_all_length (b : Board) (m p : Nat) (c : Color) :
    (b.toggle m p c).all.length = b.all.length := by
  simp [Board.toggle]

theorem toggle_pieces_length (b : Board) (m p : Nat) (c : Color) :
    (b.toggle m p c).pieces.length = b.pieces.length := by
  simp [Board.toggle]

theorem land_xor_eq_of_disjoint {a x m : Nat}
    (h : ∀ i, m.testBit i = true → a.testBit i = false) :
    a &&& (x ^^^ m) = a &&& x := by
  apply Nat.eq_of_testBit_eq
  intro i
  simp only [Nat.testBit_and, Nat.testBit_xor]
  rcases Bool.eq_false_or_eq_true (m.testBit i) with hm | hm
  · rw [hm, h i hm]; simp
  · rw [hm]; simp

theorem testBit_one_shiftLeft (k i : Nat) :
    (1 <<< k).testBit i = decide (k = i) := by
  rw [Nat.one_shiftLeft, Nat.testBit_two_pow]

theorem testBit_pair_mask (a c i : Nat) :
    ((1 <<< a) ||| (1 <<< c)).testBit i = (decide (a = i) || decide (c = i)) := by
  rw [Nat.testBit_or, testBit_one_shiftLeft, testBit_one_shiftLeft]

theorem occupied_testBit (b : Board) (i : Nat) :
    b.occupied.testBit i =
      ((b.allAt .White).testBit i || (b.allAt .Black).testBit i) := by
  simp [Board.occupied, Nat.testBit_or]

theorem disj_flip {b : Board} (hdisj : b.allAt .White &&& b.allAt .Black = 0)
    (c : Color) (i : Nat) (h : (b.allAt c).testBit i = true) :
    (b.allAt c.flip).testBit i = false := by
  cases c
  · show (b.allAt .Black).testBit i = false
    rcases Bool.eq_false_or_eq_true ((b.allAt .Black).testBit i) with hB | hB
    · exact absurd ⟨h, hB⟩ (land_eq_zero_iff.mp hdisj i)
    · exact hB
  · show (b.allAt .White).testBit i = false
    rcases Bool.eq_false_or_eq_true ((b.allAt .White).testBit i) with hW | hW
    · exact absurd ⟨hW, h⟩ (land_eq_zero_iff.mp hdisj i)
    · exact hW

/-- C4: a double push sets the en-passant square to the skipped square
exactly when an enemy pawn attacks that square at the time of the push,
and to `None` otherwise. -/
theorem double_push_ep_spec (b : Board) (mv : Move) (hInv : Inv b)
    (hOk : MoveOk b mv) (hflag : mv.flag = Flag.DOUBLE_PUSH) :
    (b.apply_move_core mv).ep_sq =
      (if attacks.pawn (Square.row_swap mv.toSq) b.stm &&&
          b.piece_bb Piece.PAWN b.stm.flip ≠ 0
       then some (Square.row_swap mv.toSq) else none) := by
  obtain ⟨hlenA, hlenP, hdisj, _, _⟩ := hInv
  obtain ⟨hf64, ht64, hfne, hp6, hfrom, htoCond, _⟩ := hOk
  have hcap : mv.is_capture = false := by
    simp only [Move.is_capture, hflag]
    decide
  have hcond : ¬(mv.is_capture = true ∧ mv.flag ≠ Flag.EP) := by
    simp [hcap]
  rw [if_neg hcond] at htoCond
  have htoWB := htoCond
  rw [occupied_testBit, Bool.or_eq_false_iff] at htoWB
  have hto : (b.allAt b.stm.flip).testBit mv.toSq = false := by
    cases hstm : b.stm
    · show (b.allAt Color.White.flip).testBit mv.toSq = false
      simpa [Color.flip] using htoWB.2
    · show (b.allAt Color.Black.flip).testBit mv.toSq = false
      simpa [Color.flip] using htoWB.1
  have hfrom' : (b.allAt b.stm.flip).testBit mv.fromSq = false :=
    disj_flip hdisj b.stm mv.fromSq hfrom
  have hpb :
      (b.toggle ((1 <<< mv.toSq) ||| (1 <<< mv.fromSq))
        (b.piece_on_sq mv.fromSq) b.stm).allAt b.stm.flip &&&
      (b.toggle ((1 <<< mv.toSq) ||| (1 <<< mv.fromSq))
        (b.piece_on_sq mv.fromSq) b.stm).pieceAt Piece.PAWN =
      b.piece_bb Piece.PAWN b.stm.flip := by
    rw [allAt_toggle _ _ _ _ _ hlenA,
      if_neg (by cases b.stm <;> simp [Color.flip] : b.stm.flip ≠ b.stm),
      pieceAt_toggle _ _ _ _ _ hlenP hp6]
    by_cases hpp : Piece.PAWN = b.piece_on_sq mv.fromSq
    · rw [if_pos hpp, ← hpp]
      exact land_xor_eq_of_disjoint (fun i hi => by
        rw [testBit_pair_mask] at hi
        rcases (by simpa using hi : mv.toSq = i ∨ mv.fromSq = i) with rfl | rfl
        · exact hto
        · exact hfrom')
    · rw [if_neg hpp]
      rfl
  have hpb' : Board.piece_bb
      { b.toggle ((1 <<< mv.toSq) ||| (1 <<< mv.fromSq))
          (b.piece_on_sq mv.fromSq) b.stm with ep_sq := none }
      Piece.PAWN b.stm.flip = b.piece_bb Piece.PAWN b.stm.flip := hpb
  simp only [Board.apply_move_core]
  rw [if_neg hcond,
    if_neg (show ¬(mv.flag = Flag.NONE ∨ mv.flag = Flag.CAPTURE) by
      rw [hflag]; decide),
    if_pos hflag, hpb']

/-- Witness for C4: `e2e4` from the parsed start position; no black pawn
attacks E3, so the resulting `ep_sq` is `none` even though the double push
occurred. -/
theorem double_push_ep_spec_witness :
    Inv startBoard ∧ MoveOk startBoard moveE2E4 ∧
    moveE2E4.flag = Flag.DOUBLE_PUSH ∧
    (startBoard.apply_move_core moveE2E4).ep_sq =
      (if attacks.pawn (Square.row_swap moveE2E4.toSq) startBoard.stm &&&
          startBoard.piece_bb Piece.PAWN startBoard.stm.flip ≠ 0
       then some (Square.row_swap moveE2E4.toSq) else none) ∧
    (startBoard.apply_move_core moveE2E4).ep_sq = none :=
  ⟨by decide, by decide, by decide,
   double_push_ep_spec startBoard moveE2E4 (by decide) (by decide) (by decide),
   by decide⟩

/-! ## Parse-error behaviour (C6) -/

/-- C6 counterexample: `Board::from_fen` on the empty string aborts — the
first `split.next().unwrap()` panics, modelled as the `none` result —
contradicting the claim that FEN parsing never aborts and surfaces
malformed input as an absent optional. -/
theorem from_fen_empty_aborts : Board.from_fen [] = none := rfl

/-- C6 (amended): `Square::from_string` surfaces a wrong byte length as
`None` without aborting, rejects in-length inputs that are not a file
letter `a`–`h` (case-insensitive) followed by a rank digit `1`–`8` as
`None`, and yields a square index below 64 on well-formed input — but it
is not abort-free: the length check counts UTF-8 bytes, so the single
two-byte character `é` passes it and the second `chars.next().unwrap()`
panics.  `Board::from_fen` likewise assumes well-formed input and aborts
(panics) on malformed input such as the empty string. -/
theorem parse_error_behavior :
    (∀ s : List Char, Square.utf8Len s ≠ 2 →
      Square.from_string s = some none) ∧
    (∀ (fc rc : Char) (rest : List Char),
      Square.utf8Len (fc :: rc :: rest) = 2 →
      ¬(('a'.toNat ≤ fc.toLower.toNat ∧ fc.toLower.toNat ≤ 'h'.toNat) ∧
        ('1'.toNat ≤ rc.toNat ∧ rc.toNat ≤ '8'.toNat)) →
      Square.from_string (fc :: rc :: rest) = some none) ∧
    (∀ (fc rc : Char) (rest : List Char),
      Square.utf8Len (fc :: rc :: rest) = 2 →
      (('a'.toNat ≤ fc.toLower.toNat ∧ fc.toLower.toNat ≤ 'h'.toNat) ∧
       ('1'.toNat ≤ rc.toNat ∧ rc.toNat ≤ '8'.toNat)) →
      ∃ sq, Square.from_string (fc :: rc :: rest) = some (some sq) ∧
        sq < 64) ∧
    Square.from_string ['é'] = none ∧
    Board.from_fen [] = none := by
  refine ⟨?_, ?_, ?_, by decide, rfl⟩
  · intro s hs
    simp only [Square.from_string]
    rw [if_pos hs]
  · intro fc rc rest hlen h
    simp only [Square.from_string]
    rw [if_neg (by simp [hlen]), if_neg h]
  · intro fc rc rest hlen h
    refine ⟨(7 - (rc.toNat - '1'.toNat)) * 8 + (fc.toLower.toNat - 'a'.toNat),
      by
        simp only [Square.from_string]
        rw [if_neg (by simp [hlen]), if_pos h], ?_⟩
    obtain ⟨⟨h1, h2⟩, h3, h4⟩ := h
    have c1 : 'a'.toNat = 97 := rfl
    have c2 : 'h'.toNat = 104 := rfl
    have c3 : '1'.toNat = 49 := rfl
    have c4 : '8'.toNat = 56 := rfl
    omega

/-! ## Move picker staging (C8) -/

theorem pickLoop_spec (b : Board) (q : Bool) : ∀ g (mp : MovePicker),
    mp.idx ≤ mp.buffer.length → (3 ≤ mp.stage → mp.buffer.length ≤ mp.idx) →
    3 - mp.stage < g →
    ∃ mp', MovePicker.pickLoop g mp b q =
        ((MovePicker.pickerRemaining b q mp).head?, mp') ∧
      MovePicker.pickerRemaining b q mp' =
        (MovePicker.pickerRemaining b q mp).tail ∧
      mp'.idx ≤ mp'.buffer.length ∧
      (3 ≤ mp'.stage → mp'.buffer.length ≤ mp'.idx) := by
  intro g
  induction g with
  | zero => intro mp _ _ hf; omega
  | succ g ih =>
    intro mp hidx hst3 hf
    by_cases hcur : mp.buffer.length ≤ mp.idx
    · -- stage-advance branch of the while loop
      have hidx' : mp.idx = mp.buffer.length := by omega
      by_cases h0 : mp.stage = 0
      · -- entering NOISY: generate the noisy moves
        have hrem : MovePicker.pickerRemaining b q
            { mp with stage := mp.stage + 1
                      idx := mp.buffer.length
                      buffer := mp.buffer ++ MovePicker.gen_moves b true } =
            MovePicker.pickerRemaining b q mp := by
          simp [MovePicker.pickerRemaining, h0, List.drop_left, hidx',
            List.drop_length]
        obtain ⟨mp', hpick, hrem', hi', hs'⟩ :=
          ih { mp with stage := mp.stage + 1
                       idx := mp.buffer.length
                       buffer := mp.buffer ++ MovePicker.gen_moves b true }
            (by simp) (by simp [h0]) (by simp [h0]; omega)
        refine ⟨mp', ?_, by rw [hrem] at hrem'; exact hrem', hi', hs'⟩
        show MovePicker.pickLoop (g + 1) mp b q = _
        simp only [MovePicker.pickLoop, if_pos hcur]
        rw [if_pos (show mp.stage + 1 = 1 by omega)]
        rw [hpick, hrem]
      · by_cases h1 : mp.stage = 1
        · -- entering QUIET: generate the quiet moves when requested
          by_cases hq : q = true
          · have hrem : MovePicker.pickerRemaining b q
                { mp with stage := mp.stage + 1
                          idx := mp.buffer.length
                          buffer := mp.buffer ++ MovePicker.gen_moves b false } =
                MovePicker.pickerRemaining b q mp := by
              simp [MovePicker.pickerRemaining, h1, List.drop_left, hidx',
                List.drop_length, hq]
            obtain ⟨mp', hpick, hrem', hi', hs'⟩ :=
              ih { mp with stage := mp.stage + 1
                           idx := mp.buffer.length
                           buffer := mp.buffer ++ MovePicker.gen_moves b false }
                (by simp) (by simp [h1]) (by simp [h1]; omega)
            refine ⟨mp', ?_, by rw [hrem] at hrem'; exact hrem', hi', hs'⟩
            show MovePicker.pickLoop (g + 1) mp b q = _
            simp only [MovePicker.pickLoop, if_pos hcur]
            rw [if_neg (show ¬mp.stage + 1 = 1 by omega),
              if_pos (show mp.stage + 1 = 2 by omega), if_pos hq]
            rw [hpick, hrem]
          · have hrem : MovePicker.pickerRemaining b q
                { mp with stage := mp.stage + 1
                          idx := mp.buffer.length } =
                MovePicker.pickerRemaining b q mp := by
              simp [MovePicker.pickerRemaining, h1, hidx', List.drop_length, hq]
            obtain ⟨mp', hpick, hrem', hi', hs'⟩ :=
              ih { mp with stage := mp.stage + 1
                           idx := mp.buffer.length }
                (by simp) (by simp [h1]) (by simp [h1]; omega)
            refine ⟨mp', ?_, by rw [hrem] at hrem'; exact hrem', hi', hs'⟩
            show MovePicker.pickLoop (g + 1) mp b q = _
            simp only [MovePicker.pickLoop, if_pos hcur]
            rw [if_neg (show ¬mp.stage + 1 = 1 by omega),
              if_pos (show mp.stage + 1 = 2 by omega), if_neg hq]
            rw [hpick, hrem]
        · -- past QUIET: the picker is done
          have hge2 : 2 ≤ mp.stage := by omega
          have hrem : MovePicker.pickerRemaining b q mp = [] := by
            by_cases h2 : mp.stage = 2
            · simp [MovePicker.pickerRemaining, h2, hidx', List.drop_length]
            · simp [MovePicker.pickerRemaining, h0, h1, h2]
          have hrem2 : MovePicker.pickerRemaining b q
              { mp with stage := mp.stage + 1
                        idx := mp.buffer.length } = [] := by
            show (if mp.stage + 1 = 0 then _
              else if mp.stage + 1 = 1 then _
              else if mp.stage + 1 = 2 then _ else []) = []
            rw [if_neg (by omega), if_neg (by omega), if_neg (by omega)]
          refine ⟨{ mp with stage := mp.stage + 1
                            idx := mp.buffer.length },
            ?_, ?_, by simp, by simp⟩
          · show MovePicker.pickLoop (g + 1) mp b q = _
            simp only [MovePicker.pickLoop, if_pos hcur]
            rw [if_neg (show ¬mp.stage + 1 = 1 by omega),
              if_neg (show ¬mp.stage + 1 = 2 by omega), hrem]
            rfl
          · rw [hrem, hrem2]
            rfl
    · -- cursor inside the buffer: hand out buffer[idx]
      push_neg at hcur
      have hs2 : mp.stage ≤ 2 := by
        by_contra hgt
        have := hst3 (by omega)
        omega
      have hdrop : mp.buffer.drop mp.idx =
          mp.buffer.getD mp.idx Move.NULL :: mp.buffer.drop (mp.idx + 1) := by
        rw [List.getD_eq_getElem?_getD, List.getElem?_eq_getElem hcur]
        simpa using List.drop_eq_getElem_cons hcur
      refine ⟨{ mp with idx := mp.idx + 1 }, ?_, ?_,
        by simp; omega, fun h3 => by simp at h3 ⊢; omega⟩
      · show MovePicker.pickLoop (g + 1) mp b q = _
        simp only [MovePicker.pickLoop,
          if_neg (show ¬mp.buffer.length ≤ mp.idx by omega)]
        have hhead : (MovePicker.pickerRemaining b q mp).head? =
            some (mp.buffer.getD mp.idx Move.NULL) := by
          rcases Nat.lt_or_ge mp.stage 1 with h | h
          · have h0 : mp.stage = 0 := by omega
            simp [MovePicker.pickerRemaining, h0, hdrop]
          · rcases Nat.lt_or_ge mp.stage 2 with h' | h'
            · have h1 : mp.stage = 1 := by omega
              simp [MovePicker.pickerRemaining, h1, hdrop]
            · have h2 : mp.stage = 2 := by omega
              simp [MovePicker.pickerRemaining, h2, hdrop]
        rw [hhead]
      · rcases Nat.lt_or_ge mp.stage 1 with h | h
        · have h0 : mp.stage = 0 := by omega
          simp [MovePicker.pickerRemaining, h0, hdrop]
        · rcases Nat.lt_or_ge mp.stage 2 with h' | h'
          · have h1 : mp.stage = 1 := by omega
            simp [MovePicker.pickerRemaining, h1, hdrop]
          · have h2 : mp.stage = 2 := by omega
            simp [MovePicker.pickerRemaining, h2, hdrop]

theorem streamGo_spec (b : Board) (q : Bool) : ∀ f (mp : MovePicker),
    mp.idx ≤ mp.buffer.length → (3 ≤ mp.stage → mp.buffer.length ≤ mp.idx) →
    (MovePicker.pickerRemaining b q mp).length < f →
    MovePicker.streamGo f mp b q = MovePicker.pickerRemaining b q mp := by
  intro f
  induction f with
  | zero => intro mp _ _ hf; omega
  | succ f ih =>
    intro mp hidx hst3 hf
    obtain ⟨mp', hpick, hrem', hi', hs'⟩ :=
      pickLoop_spec b q 4 mp hidx hst3 (by omega)
    show MovePicker.streamGo (f + 1) mp b q = _
    simp only [MovePicker.streamGo, MovePicker.pick, hpick]
    rcases hcase : MovePicker.pickerRemaining b q mp with _ | ⟨m, rest⟩
    · simp
    · rw [hcase] at hrem'
      simp only [List.head?_cons, List.tail_cons] at hrem' ⊢
      rw [ih mp' hi' hs' (by rw [hrem']; rw [hcase] at hf; simp at hf; omega),
        hrem']

/-- C8: on any board whose move count fits the picker's 255-slot buffer,
repeated `pick` calls on a fresh picker yield exactly the noisy-stage
moves followed (when quiets are requested) by the quiet-stage moves, each
stage in the fixed generation order of `gen_moves` — knights, bishops,
rooks, queens, king, then the pawn groups, with castling last in the quiet
stage; with `include_quiets = false` the picker yields the noisy moves
only and never a quiet move. -/
theorem pick_stream_staged (b : Board)
    (hcap : (MovePicker.gen_moves b true).length +
      (MovePicker.gen_moves b false).length ≤ 255) :
    MovePicker.pickStream b true =
      MovePicker.gen_moves b true ++ MovePicker.gen_moves b false ∧
    MovePicker.pickStream b false = MovePicker.gen_moves b true := by
  have hr1 : MovePicker.pickerRemaining b true MovePicker.new =
      MovePicker.gen_moves b true ++ MovePicker.gen_moves b false := by
    simp [MovePicker.pickerRemaining, MovePicker.new]
  have hr2 : MovePicker.pickerRemaining b false MovePicker.new =
      MovePicker.gen_moves b true := by
    simp [MovePicker.pickerRemaining, MovePicker.new]
  constructor
  · rw [MovePicker.pickStream,
      streamGo_spec b true _ MovePicker.new (by simp [MovePicker.new])
        (by simp [MovePicker.new])
        (by rw [hr1]; rw [List.length_append]; omega), hr1]
  · rw [MovePicker.pickStream,
      streamGo_spec b false _ MovePicker.new (by simp [MovePicker.new])
        (by simp [MovePicker.new])
        (by rw [hr2]; omega), hr2]

/-- Witness for C8 at the parsed start position (0 noisy moves, 20 quiet
moves). -/
theorem pick_stream_staged_witness :
    ((MovePicker.gen_moves startBoard true).length +
      (MovePicker.gen_moves startBoard false).length ≤ 255) ∧
    (MovePicker.pickStream startBoard true =
      MovePicker.gen_moves startBoard true ++
        MovePicker.gen_moves startBoard false ∧
     MovePicker.pickStream startBoard false =
      MovePicker.gen_moves startBoard true) :=
  ⟨by decide, pick_stream_staged startBoard (by decide)⟩

/-! ## Board invariants (C7) -/

theorem land_one_shiftLeft (sq x : Nat) :
    (1 <<< sq) &&& x = if x.testBit sq = true then 1 <<< sq else 0 := by
  by_cases hx : x.testBit sq = true
  · rw [if_pos hx]
    apply Nat.eq_of_testBit_eq
    intro j
    rw [Nat.testBit_and, testBit_one_shiftLeft]
    by_cases hj : sq = j
    · subst hj; simp [hx]
    · simp [hj]
  · rw [if_neg hx]
    apply Nat.eq_of_testBit_eq
    intro j
    rw [Nat.testBit_and, testBit_one_shiftLeft, Nat.zero_testBit]
    by_cases hj : sq = j
    · subst hj
      simp only [Bool.not_eq_true] at hx
      simp [hx]
    · simp [hj]

theorem land_one_shiftLeft_ne_zero (sq x : Nat) :
    ((1 <<< sq) &&& x ≠ 0) ↔ x.testBit sq = true := by
  rw [land_one_shiftLeft]
  have hpos : 0 < 2 ^ sq := Nat.pos_pow_of_pos sq (by omega)
  by_cases hx : x.testBit sq = true
  · rw [if_pos hx, Nat.one_shiftLeft]
    simp only [hx, iff_true]
    omega
  · rw [if_neg hx]
    simp [hx]

theorem unionPieces_testBit (b : Board) (i : Nat) :
    (unionPieces b).testBit i =
      ((b.pieceAt 0).testBit i || (b.pieceAt 1).testBit i ||
       (b.pieceAt 2).testBit i || (b.pieceAt 3).testBit i ||
       (b.pieceAt 4).testBit i || (b.pieceAt 5).testBit i) := by
  simp [unionPieces, Nat.testBit_or]

theorem exists_lt_six_iff (f : Nat → Prop) :
    (∃ p, p < 6 ∧ f p) ↔ (f 0 ∨ f 1 ∨ f 2 ∨ f 3 ∨ f 4 ∨ f 5) := by
  constructor
  · rintro ⟨p, hp, h⟩
    interval_cases p <;> tauto
  · rintro (h | h | h | h | h | h)
    exacts [⟨0, by omega, h⟩, ⟨1, by omega, h⟩, ⟨2, by omega, h⟩,
      ⟨3, by omega, h⟩, ⟨4, by omega, h⟩, ⟨5, by omega, h⟩]

theorem inv_iff_invP (b : Board) : Inv b ↔ InvP b := by
  constructor
  · rintro ⟨hlA, hlP, hdisj, hpd, hcov⟩
    refine ⟨hlA, hlP, fun i => ⟨land_eq_zero_iff.mp hdisj i, ?_, ?_⟩⟩
    · intro p hp q hq hne
      exact land_eq_zero_iff.mp (hpd p hp q hq hne) i
    · have hc := congrArg (fun n => n.testBit i) hcov
      simp only [unionPieces_testBit, Nat.testBit_or] at hc
      rw [Bool.eq_iff_iff] at hc
      simp only [Bool.or_eq_true] at hc
      rw [exists_lt_six_iff]
      tauto
  · rintro ⟨hlA, hlP, hpw⟩
    refine ⟨hlA, hlP, ?_, ?_, ?_⟩
    · exact land_eq_zero_iff.mpr fun i => (hpw i).1
    · intro p hp q hq hne
      exact land_eq_zero_iff.mpr fun i => (hpw i).2.1 p hp q hq hne
    · apply Nat.eq_of_testBit_eq
      intro i
      obtain ⟨_, _, pw3⟩ := hpw i
      rw [exists_lt_six_iff] at pw3
      rw [unionPieces_testBit, Nat.testBit_or, Bool.eq_iff_iff]
      simp only [Bool.or_eq_true]
      tauto

theorem toggle_testBit_all (b : Board) (m p : Nat) (c : Color)
    (hlenA : b.all.length = 2) (c' : Color) (i : Nat) :
    ((b.toggle m p c).allAt c').testBit i =
      ((b.allAt c').testBit i).xor (decide (c' = c) && m.testBit i) := by
  rw [allAt_toggle _ _ _ _ _ hlenA]
  by_cases h : c' = c
  · subst h; simp [Nat.testBit_xor]
  · simp [h]

theorem toggle_testBit_piece (b : Board) (m p : Nat) (c : Color)
    (hlenP : b.pieces.length = 6) (hp : p < 6) (q i : Nat) :
    ((b.toggle m p c).pieceAt q).testBit i =
      ((b.pieceAt q).testBit i).xor (decide (q = p) && m.testBit i) := by
  rw [pieceAt_toggle _ _ _ _ _ hlenP hp]
  by_cases h : q = p
  · subst h; simp [Nat.testBit_xor]
  · simp [h]

/-- A toggle whose mask bits each either remove a piece that is present
(in `all[c]` and `pieces[p]`) or add a piece to a fully empty square
preserves the board invariant. -/
theorem toggle_preserves (b : Board) (m p : Nat) (c : Color) (hp : p < 6)
    (hInv : InvP b)
    (hm : ∀ i, m.testBit i = true →
      (((b.allAt c).testBit i = true ∧ (b.pieceAt p).testBit i = true) ∨
       ((b.allAt .White).testBit i = false ∧ (b.allAt .Black).testBit i = false ∧
        ∀ q, q < 6 → (b.pieceAt q).testBit i = false))) :
    InvP (b.toggle m p c) := by
  obtain ⟨hlA, hlP, hpw⟩ := hInv
  refine ⟨by rw [toggle_all_length]; exact hlA,
    by rw [toggle_pieces_length]; exact hlP, fun i => ?_⟩
  obtain ⟨pw1, pw2, pw3⟩ := hpw i
  have hA := fun c' => toggle_testBit_all b m p c hlA c' i
  have hP := fun q => toggle_testBit_piece b m p c hlP hp q i
  rcases Bool.eq_false_or_eq_true (m.testBit i) with hmi | hmi
  · simp only [hA, hP, hmi, Bool.and_true]
    rcases hm i hmi with ⟨hac, hpp⟩ | ⟨hw, hb, hq⟩
    · -- removing a present piece of (c, p)
      have hacFlip : (b.allAt c.flip).testBit i = false := by
        cases c
        · show (b.allAt Color.Black).testBit i = false
          rcases Bool.eq_false_or_eq_true ((b.allAt Color.Black).testBit i)
            with h | h
          · exact absurd ⟨hac, h⟩ pw1
          · exact h
        · show (b.allAt Color.White).testBit i = false
          rcases Bool.eq_false_or_eq_true ((b.allAt Color.White).testBit i)
            with h | h
          · exact absurd ⟨h, hac⟩ pw1
          · exact h
      have hPother : ∀ q, q < 6 → q ≠ p → (b.pieceAt q).testBit i = false := by
        intro q hq hqp
        rcases Bool.eq_false_or_eq_true ((b.pieceAt q).testBit i) with h | h
        · exact absurd ⟨h, hpp⟩ (pw2 q hq p hp hqp)
        · exact h
      refine ⟨?_, ?_, ?_⟩
      · cases c
        · have hB : (b.allAt Color.Black).testBit i = false := hacFlip
          simp [hac, hB]
        · have hW : (b.allAt Color.White).testBit i = false := hacFlip
          simp [hac, hW]
      · intro q1 hq1 q2 hq2 hne
        by_cases hq1p : q1 = p
        · simp [hq1p, hpp]
        · by_cases hq2p : q2 = p
          · simp [hq2p, hpp]
          · have d1 : decide (q1 = p) = false := by simp [hq1p]
            have d2 : decide (q2 = p) = false := by simp [hq2p]
            rw [d1, d2, Bool.xor_false, Bool.xor_false]
            exact pw2 q1 hq1 q2 hq2 hne
      · constructor
        · rintro ⟨q, hq, hbit⟩
          by_cases hqp : q = p
          · simp [hqp, hpp] at hbit
          · have d : decide (q = p) = false := by simp [hqp]
            rw [d, Bool.xor_false, hPother q hq hqp] at hbit
            simp at hbit
        · intro h
          exfalso
          cases c
          · have hB : (b.allAt Color.Black).testBit i = false := hacFlip
            rcases h with h | h
            · simp [hac] at h
            · simp [hB] at h
          · have hW : (b.allAt Color.White).testBit i = false := hacFlip
            rcases h with h | h
            · simp [hW] at h
            · simp [hac] at h
    · -- adding a piece to an empty square
      refine ⟨?_, ?_, ?_⟩
      · cases c
        · simp [hw, hb]
        · simp [hw, hb]
      · intro q1 hq1 q2 hq2 hne
        by_cases hq1p : q1 = p
        · by_cases hq2p : q2 = p
          · exact absurd (hq1p.trans hq2p.symm) hne
          · simp [hq2p, hq q2 hq2]
        · simp [hq1p, hq q1 hq1]
      · constructor
        · intro _
          cases c
          · simp [hw]
          · simp [hb]
        · intro _
          exact ⟨p, hp, by simp [hq p hp]⟩
  · -- square untouched by the mask
    simp only [hA, hP, hmi, Bool.and_false, Bool.xor_false]
    exact ⟨pw1, pw2, pw3⟩

theorem piece_on_sq_bit (b : Board) (sq : Nat) (h : b.piece_on_sq sq < 6) :
    (b.pieceAt (b.piece_on_sq sq)).testBit sq = true := by
  simp only [Board.piece_on_sq] at h ⊢
  split_ifs at h ⊢ with h0 h1 h2 h3 h4 h5
  · exact (land_one_shiftLeft_ne_zero sq _).mp h0
  · exact (land_one_shiftLeft_ne_zero sq _).mp h1
  · exact (land_one_shiftLeft_ne_zero sq _).mp h2
  · exact (land_one_shiftLeft_ne_zero sq _).mp h3
  · exact (land_one_shiftLeft_ne_zero sq _).mp h4
  · exact (land_one_shiftLeft_ne_zero sq _).mp h5
  · exact absurd h (by decide)

theorem piece_on_sq_lt (b : Board) (sq q : Nat) (hq : q < 6)
    (hbit : (b.pieceAt q).testBit sq = true) : b.piece_on_sq sq < 6 := by
  simp only [Board.piece_on_sq]
  split_ifs with h0 h1 h2 h3 h4 h5
  · decide
  · decide
  · decide
  · decide
  · decide
  · decide
  · exfalso
    rw [land_one_shiftLeft_ne_zero] at h0 h1 h2 h3 h4 h5
    simp only [Bool.not_eq_true] at h0 h1 h2 h3 h4 h5
    simp only [Piece.KNIGHT, Piece.BISHOP, Piece.ROOK, Piece.QUEEN,
      Piece.PAWN, Piece.KING] at h0 h1 h2 h3 h4 h5
    interval_cases q
    · exact absurd hbit (by simp [h0])
    · exact absurd hbit (by simp [h1])
    · exact absurd hbit (by simp [h2])
    · exact absurd hbit (by simp [h3])
    · exact absurd hbit (by simp [h4])
    · exact absurd hbit (by simp [h5])

theorem row_swap_ne (n : Nat) : Square.row_swap n ≠ n := by
  intro h
  have h3 := congrArg (fun x => x.testBit 3) h
  have h8 : Nat.testBit 8 3 = true := by decide
  simp [Square.row_swap, Nat.testBit_xor, h8] at h3

theorem flip_ne (c : Color) : c.flip ≠ c := by
  cases c <;> simp [Color.flip]

/-- The per-flag tail of `apply_move_core` — the mover toggle followed by
the flag-specific toggles — preserves the board invariant, for any board
`B1` (the original board, or the board after capture removal) on which the
mover stands on the from-square, the to-square is empty, and the
flag-specific pieces are in place. -/
theorem arms_preserve (B1 : Board) (mv : Move) (stm : Color) (p : Nat)
    (hp6 : p < 6) (hInv1 : InvP B1)
    (hfrom1 : (B1.allAt stm).testBit mv.fromSq = true)
    (hpbit1 : (B1.pieceAt p).testBit mv.fromSq = true)
    (hEW : (B1.allAt .White).testBit mv.toSq = false)
    (hEB : (B1.allAt .Black).testBit mv.toSq = false)
    (hEQ : ∀ q, q < 6 → (B1.pieceAt q).testBit mv.toSq = false)
    (hKSf : mv.flag = Flag.KS_CASTLE → mv.toSq = mv.fromSq + 2 ∧
      (B1.allAt stm).testBit (mv.fromSq + 3) = true ∧
      (B1.pieceAt Piece.ROOK).testBit (mv.fromSq + 3) = true ∧
      (B1.allAt .White).testBit (mv.fromSq + 1) = false ∧
      (B1.allAt .Black).testBit (mv.fromSq + 1) = false ∧
      (∀ q, q < 6 → (B1.pieceAt q).testBit (mv.fromSq + 1) = false))
    (hQSf : mv.flag = Flag.QS_CASTLE → 4 ≤ mv.fromSq ∧
      mv.toSq + 2 = mv.fromSq ∧
      (B1.allAt stm).testBit (mv.fromSq - 4) = true ∧
      (B1.pieceAt Piece.ROOK).testBit (mv.fromSq - 4) = true ∧
      (B1.allAt .White).testBit (mv.fromSq - 1) = false ∧
      (B1.allAt .Black).testBit (mv.fromSq - 1) = false ∧
      (∀ q, q < 6 → (B1.pieceAt q).testBit (mv.fromSq - 1) = false))
    (hEPf : mv.flag = Flag.EP →
      Square.row_swap mv.toSq ≠ mv.fromSq ∧
      (B1.allAt stm.flip).testBit (Square.row_swap mv.toSq) = true ∧
      (B1.pieceAt Piece.PAWN).testBit (Square.row_swap mv.toSq) = true) :
    InvP (
      if mv.flag = Flag.NONE ∨ mv.flag = Flag.CAPTURE then
        ({ B1.toggle ((1 <<< mv.toSq) ||| (1 <<< mv.fromSq)) p stm with
          ep_sq := none } : Board)
      else if mv.flag = Flag.DOUBLE_PUSH then
        { B1.toggle ((1 <<< mv.toSq) ||| (1 <<< mv.fromSq)) p stm with
          ep_sq :=
            if attacks.pawn (Square.row_swap mv.toSq) stm &&&
                ({ B1.toggle ((1 <<< mv.toSq) ||| (1 <<< mv.fromSq)) p stm with
                  ep_sq := none } : Board).piece_bb Piece.PAWN stm.flip ≠ 0
            then some (Square.row_swap mv.toSq) else none }
      else if mv.flag = Flag.KS_CASTLE then
        ({ B1.toggle ((1 <<< mv.toSq) ||| (1 <<< mv.fromSq)) p stm with
          ep_sq := none } : Board).toggle
          ((1 <<< (mv.fromSq + 1)) ||| (1 <<< (mv.fromSq + 3))) Piece.ROOK stm
      else if mv.flag = Flag.QS_CASTLE then
        ({ B1.toggle ((1 <<< mv.toSq) ||| (1 <<< mv.fromSq)) p stm with
          ep_sq := none } : Board).toggle
          ((1 <<< (mv.fromSq - 1)) ||| (1 <<< (mv.fromSq - 4))) Piece.ROOK stm
      else if mv.flag = Flag.EP then
        ({ B1.toggle ((1 <<< mv.toSq) ||| (1 <<< mv.fromSq)) p stm with
          ep_sq := none } : Board).toggle
          (1 <<< Square.row_swap mv.toSq) Piece.PAWN stm.flip
      else
        (({ B1.toggle ((1 <<< mv.toSq) ||| (1 <<< mv.fromSq)) p stm with
          ep_sq := none } : Board).toggle (1 <<< mv.toSq) p stm).toggle
          (1 <<< mv.toSq) mv.promo_piece stm) := by
  have hlA1 : B1.all.length = 2 := hInv1.1
  have hlP1 : B1.pieces.length = 6 := hInv1.2.1
  have hEstm : ∀ c : Color, (B1.allAt c).testBit mv.toSq = false := fun c => by
    cases c
    · exact hEW
    · exact hEB
  have hInv2 : InvP (B1.toggle ((1 <<< mv.toSq) ||| (1 <<< mv.fromSq)) p stm) :=
    toggle_preserves _ _ _ _ hp6 hInv1 (fun i hi => by
      rw [testBit_pair_mask] at hi
      rcases (by simpa using hi : mv.toSq = i ∨ mv.fromSq = i) with h | h
      · subst h
        exact Or.inr ⟨hEW, hEB, hEQ⟩
      · subst h
        exact Or.inl ⟨hfrom1, hpbit1⟩)
  have hInv2' : InvP ({ B1.toggle ((1 <<< mv.toSq) ||| (1 <<< mv.fromSq)) p stm
      with ep_sq := none } : Board) := hInv2
  have hA2 : ∀ (c' : Color) (j : Nat),
      (((B1.toggle ((1 <<< mv.toSq) ||| (1 <<< mv.fromSq)) p stm)).allAt
        c').testBit j =
      ((B1.allAt c').testBit j).xor (decide (c' = stm) &&
        ((1 <<< mv.toSq) ||| (1 <<< mv.fromSq)).testBit j) :=
    fun c' j => toggle_testBit_all B1 _ p stm hlA1 c' j
  have hP2 : ∀ (q j : Nat),
      (((B1.toggle ((1 <<< mv.toSq) ||| (1 <<< mv.fromSq)) p stm)).pieceAt
        q).testBit j =
      ((B1.pieceAt q).testBit j).xor (decide (q = p) &&
        ((1 <<< mv.toSq) ||| (1 <<< mv.fromSq)).testBit j) :=
    fun q j => toggle_testBit_piece B1 _ p stm hlP1 hp6 q j
  by_cases h01 : mv.flag = Flag.NONE ∨ mv.flag = Flag.CAPTURE
  · rw [if_pos h01]
    exact hInv2'
  · rw [if_neg h01]
    by_cases hDP : mv.flag = Flag.DOUBLE_PUSH
    · rw [if_pos hDP]
      exact hInv2
    · rw [if_neg hDP]
      by_cases hKS : mv.flag = Flag.KS_CASTLE
      · rw [if_pos hKS]
        obtain ⟨ht2, hra, hrp, hw1, hb1, hq1⟩ := hKSf hKS
        have hmaskA : ((1 <<< mv.toSq) ||| (1 <<< mv.fromSq)).testBit
            (mv.fromSq + 3) = false := by
          rw [testBit_pair_mask]
          simp only [Bool.or_eq_false_iff, decide_eq_false_iff_not]
          omega
        have hmaskC : ((1 <<< mv.toSq) ||| (1 <<< mv.fromSq)).testBit
            (mv.fromSq + 1) = false := by
          rw [testBit_pair_mask]
          simp only [Bool.or_eq_false_iff, decide_eq_false_iff_not]
          omega
        apply toggle_preserves _ _ _ _ (by decide) hInv2'
        intro i hi
        rw [testBit_pair_mask] at hi
        rcases (by simpa using hi : mv.fromSq + 1 = i ∨ mv.fromSq + 3 = i)
          with h | h
        · subst h
          refine Or.inr ⟨?_, ?_, ?_⟩
          · rw [show (({ B1.toggle ((1 <<< mv.toSq) ||| (1 <<< mv.fromSq)) p stm
              with ep_sq := none } : Board).allAt .White) =
              ((B1.toggle ((1 <<< mv.toSq) ||| (1 <<< mv.fromSq)) p stm).allAt
                .White) from rfl, hA2, hmaskC]
            simp [hw1]
          · rw [show (({ B1.toggle ((1 <<< mv.toSq) ||| (1 <<< mv.fromSq)) p stm
              with ep_sq := none } : Board).allAt .Black) =
              ((B1.toggle ((1 <<< mv.toSq) ||| (1 <<< mv.fromSq)) p stm).allAt
                .Black) from rfl, hA2, hmaskC]
            simp [hb1]
          · intro q hq
            rw [show (({ B1.toggle ((1 <<< mv.toSq) ||| (1 <<< mv.fromSq)) p stm
              with ep_sq := none } : Board).pieceAt q) =
              ((B1.toggle ((1 <<< mv.toSq) ||| (1 <<< mv.fromSq)) p stm).pieceAt
                q) from rfl, hP2, hmaskC]
            simp [hq1 q hq]
        · subst h
          refine Or.inl ⟨?_, ?_⟩
          · rw [show (({ B1.toggle ((1 <<< mv.toSq) ||| (1 <<< mv.fromSq)) p stm
              with ep_sq := none } : Board).allAt stm) =
              ((B1.toggle ((1 <<< mv.toSq) ||| (1 <<< mv.fromSq)) p stm).allAt
                stm) from rfl, hA2, hmaskA]
            simp [hra]
          · rw [show (({ B1.toggle ((1 <<< mv.toSq) ||| (1 <<< mv.fromSq)) p stm
              with ep_sq := none } : Board).pieceAt Piece.ROOK) =
              ((B1.toggle ((1 <<< mv.toSq) ||| (1 <<< mv.fromSq)) p stm).pieceAt
                Piece.ROOK) from rfl, hP2, hmaskA]
            simp [hrp]
      · rw [if_neg hKS]
        by_cases hQS : mv.flag = Flag.QS_CASTLE
        · rw [if_pos hQS]
          obtain ⟨hf4, ht2, hra, hrp, hw1, hb1, hq1⟩ := hQSf hQS
          have hmaskA : ((1 <<< mv.toSq) ||| (1 <<< mv.fromSq)).testBit
              (mv.fromSq - 4) = false := by
            rw [testBit_pair_mask]
            simp only [Bool.or_eq_false_iff, decide_eq_false_iff_not]
            omega
          have hmaskC : ((1 <<< mv.toSq) ||| (1 <<< mv.fromSq)).testBit
              (mv.fromSq - 1) = false := by
            rw [testBit_pair_mask]
            simp only [Bool.or_eq_false_iff, decide_eq_false_iff_not]
            omega
          apply toggle_preserves _ _ _ _ (by decide) hInv2'
          intro i hi
          rw [testBit_pair_mask] at hi
          rcases (by simpa using hi : mv.fromSq - 1 = i ∨ mv.fromSq - 4 = i)
            with h | h
          · subst h
            refine Or.inr ⟨?_, ?_, ?_⟩
            · rw [show (({ B1.toggle ((1 <<< mv.toSq) ||| (1 <<< mv.fromSq)) p
                stm with ep_sq := none } : Board).allAt .White) =
                ((B1.toggle ((1 <<< mv.toSq) ||| (1 <<< mv.fromSq)) p stm).allAt
                  .White) from rfl, hA2, hmaskC]
              simp [hw1]
            · rw [show (({ B1.toggle ((1 <<< mv.toSq) ||| (1 <<< mv.fromSq)) p
                stm with ep_sq := none } : Board).allAt .Black) =
                ((B1.toggle ((1 <<< mv.toSq) ||| (1 <<< mv.fromSq)) p stm).allAt
                  .Black) from rfl, hA2, hmaskC]
              simp [hb1]
            · intro q hq
              rw [show (({ B1.toggle ((1 <<< mv.toSq) ||| (1 <<< mv.fromSq)) p
                stm with ep_sq := none } : Board).pieceAt q) =
                ((B1.toggle ((1 <<< mv.toSq) ||| (1 <<< mv.fromSq)) p
                  stm).pieceAt q) from rfl, hP2, hmaskC]
              simp [hq1 q hq]
          · subst h
            refine Or.inl ⟨?_, ?_⟩
            · rw [show (({ B1.toggle ((1 <<< mv.toSq) ||| (1 <<< mv.fromSq)) p
                stm with ep_sq := none } : Board).allAt stm) =
                ((B1.toggle ((1 <<< mv.toSq) ||| (1 <<< mv.fromSq)) p stm).allAt
                  stm) from rfl, hA2, hmaskA]
              simp [hra]
            · rw [show (({ B1.toggle ((1 <<< mv.toSq) ||| (1 <<< mv.fromSq)) p
                stm with ep_sq := none } : Board).pieceAt Piece.ROOK) =
                ((B1.toggle ((1 <<< mv.toSq) ||| (1 <<< mv.fromSq)) p
                  stm).pieceAt Piece.ROOK) from rfl, hP2, hmaskA]
              simp [hrp]
        · rw [if_neg hQS]
          by_cases hEPc : mv.flag = Flag.EP
          · rw [if_pos hEPc]
            obtain ⟨hcf, hca, hcp⟩ := hEPf hEPc
            have hmaskCap : ((1 <<< mv.toSq) ||| (1 <<< mv.fromSq)).testBit
                (Square.row_swap mv.toSq) = false := by
              rw [testBit_pair_mask]
              simp only [Bool.or_eq_false_iff, decide_eq_false_iff_not]
              exact ⟨fun h => row_swap_ne mv.toSq h.symm, fun h => hcf h.symm⟩
            apply toggle_preserves _ _ _ _ (by decide) hInv2'
            intro i hi
            rw [testBit_one_shiftLeft] at hi
            have h := (by simpa using hi : Square.row_swap mv.toSq = i)
            subst h
            refine Or.inl ⟨?_, ?_⟩
            · rw [show (({ B1.toggle ((1 <<< mv.toSq) ||| (1 <<< mv.fromSq)) p
                stm with ep_sq := none } : Board).allAt stm.flip) =
                ((B1.toggle ((1 <<< mv.toSq) ||| (1 <<< mv.fromSq)) p stm).allAt
                  stm.flip) from rfl, hA2]
              simp [flip_ne stm, hca]
            · rw [show (({ B1.toggle ((1 <<< mv.toSq) ||| (1 <<< mv.fromSq)) p
                stm with ep_sq := none } : Board).pieceAt Piece.PAWN) =
                ((B1.toggle ((1 <<< mv.toSq) ||| (1 <<< mv.fromSq)) p
                  stm).pieceAt Piece.PAWN) from rfl, hP2, hmaskCap]
              simp [hcp]
          · rw [if_neg hEPc]
            -- promotion: remove the pawn from the target, add the promoted
            -- piece there
            have hmaskT : ((1 <<< mv.toSq) ||| (1 <<< mv.fromSq)).testBit
                mv.toSq = true := by
              rw [testBit_pair_mask]
              simp
            have hstmT : ((B1.toggle ((1 <<< mv.toSq) ||| (1 <<< mv.fromSq)) p
                stm).allAt stm).testBit mv.toSq = true := by
              rw [hA2, hmaskT]
              simp [hEstm stm]
            have hpT : ((B1.toggle ((1 <<< mv.toSq) ||| (1 <<< mv.fromSq)) p
                stm).pieceAt p).testBit mv.toSq = true := by
              rw [hP2, hmaskT]
              simp [hEQ p hp6]
            have hInv3 : InvP (({ B1.toggle ((1 <<< mv.toSq) |||
                (1 <<< mv.fromSq)) p stm with ep_sq := none } : Board).toggle
                (1 <<< mv.toSq) p stm) :=
              toggle_preserves _ _ _ _ hp6 hInv2' (fun i hi => by
                rw [testBit_one_shiftLeft] at hi
                have h := (by simpa using hi : mv.toSq = i)
                subst h
                exact Or.inl ⟨hstmT, hpT⟩)
            have hlA2 : (({ B1.toggle ((1 <<< mv.toSq) ||| (1 <<< mv.fromSq)) p
                stm with ep_sq := none } : Board)).all.length = 2 := hInv2'.1
            have hlP2 : (({ B1.toggle ((1 <<< mv.toSq) ||| (1 <<< mv.fromSq)) p
                stm with ep_sq := none } : Board)).pieces.length = 6 :=
              hInv2'.2.1
            have hA3 := fun c' j => toggle_testBit_all
              ({ B1.toggle ((1 <<< mv.toSq) ||| (1 <<< mv.fromSq)) p stm with
                ep_sq := none } : Board) (1 <<< mv.toSq) p stm hlA2 c' j
            have hP3 := fun q j => toggle_testBit_piece
              ({ B1.toggle ((1 <<< mv.toSq) ||| (1 <<< mv.fromSq)) p stm with
                ep_sq := none } : Board) (1 <<< mv.toSq) p stm hlP2 hp6 q j
            have hpr6 : mv.promo_piece < 6 := by
              have : (mv.flag - Flag.KNIGHT_PROMO) % 4 < 4 :=
                Nat.mod_lt _ (by omega)
              simpa [Move.promo_piece] using (by omega : (mv.flag -
                Flag.KNIGHT_PROMO) % 4 < 6)
            have hconvA : ∀ c' : Color,
                (({ B1.toggle ((1 <<< mv.toSq) ||| (1 <<< mv.fromSq)) p stm with
                  ep_sq := none } : Board).allAt c') =
                ((B1.toggle ((1 <<< mv.toSq) ||| (1 <<< mv.fromSq)) p
                  stm).allAt c') := fun _ => rfl
            have hconvP : ∀ q : Nat,
                (({ B1.toggle ((1 <<< mv.toSq) ||| (1 <<< mv.fromSq)) p stm with
                  ep_sq := none } : Board).pieceAt q) =
                ((B1.toggle ((1 <<< mv.toSq) ||| (1 <<< mv.fromSq)) p
                  stm).pieceAt q) := fun _ => rfl
            apply toggle_preserves _ _ _ _ hpr6 hInv3
            intro i hi
            rw [testBit_one_shiftLeft] at hi
            have h := (by simpa using hi : mv.toSq = i)
            subst h
            refine Or.inr ⟨?_, ?_, ?_⟩
            · rw [hA3, hconvA, hA2, testBit_one_shiftLeft, hmaskT]
              cases stm
              · simp [hEW]
              · simp [hEW]
            · rw [hA3, hconvA, hA2, testBit_one_shiftLeft, hmaskT]
              cases stm
              · simp [hEB]
              · simp [hEB]
            · intro q hq
              rw [hP3, hconvP, hP2, testBit_one_shiftLeft, hmaskT]
              by_cases hqp : q = p
              · simp [hqp, hEQ p hp6]
              · simp [hqp, hEQ q hq]

/-- The state mutation of `try_play_move` preserves the board invariant for
every pseudo-legal move. -/
theorem apply_core_preserves (b : Board) (mv : Move) (hInv : Inv b)
    (hOk : MoveOk b mv) : Inv (b.apply_move_core mv) := by
  rw [inv_iff_invP] at hInv ⊢
  obtain ⟨hf64, ht64, hfne, hp6, hfrom, htoCond, hKS, hQS, hEPh, _⟩ := hOk
  have hlA : b.all.length = 2 := hInv.1
  have hlP : b.pieces.length = 6 := hInv.2.1
  have hpbit := piece_on_sq_bit b mv.fromSq hp6
  simp only [Board.apply_move_core]
  by_cases hcap : mv.is_capture = true ∧ mv.flag ≠ Flag.EP
  · rw [if_pos hcap]
    rw [if_pos hcap] at htoCond
    have hfl15 : mv.flag ≤ 15 := by
      simp only [Move.flag]
      exact Nat.and_le_right
    have hcap1 : (1 <<< mv.flag) &&& 0x3C22 ≠ 0 :=
      of_decide_eq_true (by simpa [Move.is_capture] using hcap.1)
    have hne5 : mv.flag ≠ 5 := hcap.2
    have hflags : mv.flag = 1 ∨ (10 ≤ mv.flag ∧ mv.flag ≤ 13) := by
      have hgen : ∀ fl : Nat, fl < 16 → (1 <<< fl) &&& 0x3C22 ≠ 0 → fl ≠ 5 →
          (fl = 1 ∨ (10 ≤ fl ∧ fl ≤ 13)) := by decide
      exact hgen mv.flag (by omega) hcap1 hne5
    have htopp : (b.allAt b.stm.flip).testBit mv.toSq = true := htoCond
    have hWB : (b.allAt .White).testBit mv.toSq = true ∨
        (b.allAt .Black).testBit mv.toSq = true := by
      cases hstm : b.stm
      · rw [hstm] at htopp
        exact Or.inr htopp
      · rw [hstm] at htopp
        exact Or.inl htopp
    obtain ⟨cq, hcq6, hcqbit⟩ := (hInv.2.2 mv.toSq).2.2.mpr hWB
    have hcp6 : b.piece_on_sq mv.toSq < 6 := piece_on_sq_lt b mv.toSq cq hcq6 hcqbit
    have hcpbit := piece_on_sq_bit b mv.toSq hcp6
    have hstmAllT : (b.allAt b.stm).testBit mv.toSq = false := by
      have pw1 := (hInv.2.2 mv.toSq).1
      cases hstm : b.stm
      · rcases Bool.eq_false_or_eq_true
          ((b.allAt Color.White).testBit mv.toSq) with h | h
        · rw [hstm] at htopp
          exact absurd ⟨h, htopp⟩ pw1
        · exact h
      · rcases Bool.eq_false_or_eq_true
          ((b.allAt Color.Black).testBit mv.toSq) with h | h
        · rw [hstm] at htopp
          exact absurd ⟨htopp, h⟩ pw1
        · exact h
    have hInv1 : InvP (b.toggle (1 <<< mv.toSq) (b.piece_on_sq mv.toSq)
        b.stm.flip) :=
      toggle_preserves _ _ _ _ hcp6 hInv (fun i hi => by
        rw [testBit_one_shiftLeft] at hi
        have h := (by simpa using hi : mv.toSq = i)
        subst h
        exact Or.inl ⟨htopp, hcpbit⟩)
    have hA1 := fun c' j => toggle_testBit_all b (1 <<< mv.toSq)
      (b.piece_on_sq mv.toSq) b.stm.flip hlA c' j
    have hP1 := fun q j => toggle_testBit_piece b (1 <<< mv.toSq)
      (b.piece_on_sq mv.toSq) b.stm.flip hlP hcp6 q j
    have hfrom1 : ((b.toggle (1 <<< mv.toSq) (b.piece_on_sq mv.toSq)
        b.stm.flip).allAt b.stm).testBit mv.fromSq = true := by
      rw [hA1, testBit_one_shiftLeft]
      simp [Ne.symm (flip_ne b.stm), hfrom]
    have hpbit1 : ((b.toggle (1 <<< mv.toSq) (b.piece_on_sq mv.toSq)
        b.stm.flip).pieceAt (b.piece_on_sq mv.fromSq)).testBit mv.fromSq =
        true := by
      rw [hP1, testBit_one_shiftLeft]
      simp [Ne.symm hfne, hpbit]
    have hOppAllFalse : ∀ c' : Color, ((b.toggle (1 <<< mv.toSq)
        (b.piece_on_sq mv.toSq) b.stm.flip).allAt c').testBit mv.toSq =
        false := by
      intro c'
      rw [hA1, testBit_one_shiftLeft]
      by_cases hc : c' = b.stm.flip
      · simp [hc, htopp]
      · have hc' : c' = b.stm := by
          cases c' <;> cases hstm : b.stm <;> simp_all [Color.flip]
        simp [hc, hc', hstmAllT, Ne.symm (flip_ne b.stm)]
    have hEQ1 : ∀ q, q < 6 → ((b.toggle (1 <<< mv.toSq)
        (b.piece_on_sq mv.toSq) b.stm.flip).pieceAt q).testBit mv.toSq =
        false := by
      intro q hq
      rw [hP1, testBit_one_shiftLeft]
      by_cases hqc : q = b.piece_on_sq mv.toSq
      · simp [hqc, hcpbit]
      · have hqf : (b.pieceAt q).testBit mv.toSq = false := by
          rcases Bool.eq_false_or_eq_true ((b.pieceAt q).testBit mv.toSq)
            with h | h
          · exact absurd ⟨h, hcpbit⟩ ((hInv.2.2 mv.toSq).2.1 q hq _ hcp6 hqc)
          · exact h
        simp [hqc, hqf]
    refine arms_preserve _ mv b.stm (b.piece_on_sq mv.fromSq) hp6 hInv1
      hfrom1 hpbit1 (hOppAllFalse .White) (hOppAllFalse .Black) hEQ1
      ?_ ?_ ?_
    · intro h
      have h3 : mv.flag = 3 := h
      omega
    · intro h
      have h4 : mv.flag = 4 := h
      omega
    · intro h
      have h5 : mv.flag = 5 := h
      omega
  · rw [if_neg hcap]
    rw [if_neg hcap] at htoCond
    have hWBt := htoCond
    rw [occupied_testBit, Bool.or_eq_false_iff] at hWBt
    have hQt : ∀ q, q < 6 → (b.pieceAt q).testBit mv.toSq = false := by
      intro q hq
      rcases Bool.eq_false_or_eq_true ((b.pieceAt q).testBit mv.toSq)
        with h | h
      · rcases (hInv.2.2 mv.toSq).2.2.mp ⟨q, hq, h⟩ with hW | hB
        · exact absurd hW (by simp [hWBt.1])
        · exact absurd hB (by simp [hWBt.2])
      · exact h
    refine arms_preserve b mv b.stm (b.piece_on_sq mv.fromSq) hp6 hInv
      hfrom hpbit hWBt.1 hWBt.2 hQt ?_ ?_ ?_
    · intro h
      obtain ⟨ht2, _, hra, hrp, hocc1⟩ := hKS h
      rw [occupied_testBit, Bool.or_eq_false_iff] at hocc1
      have hq1 : ∀ q, q < 6 → (b.pieceAt q).testBit (mv.fromSq + 1) = false := by
        intro q hq
        rcases Bool.eq_false_or_eq_true
          ((b.pieceAt q).testBit (mv.fromSq + 1)) with h' | h'
        · rcases (hInv.2.2 (mv.fromSq + 1)).2.2.mp ⟨q, hq, h'⟩ with hW | hB
          · exact absurd hW (by simp [hocc1.1])
          · exact absurd hB (by simp [hocc1.2])
        · exact h'
      exact ⟨ht2, hra, hrp, hocc1.1, hocc1.2, hq1⟩
    · intro h
      obtain ⟨hf4, ht2, hra, hrp, hocc1⟩ := hQS h
      rw [occupied_testBit, Bool.or_eq_false_iff] at hocc1
      have hq1 : ∀ q, q < 6 → (b.pieceAt q).testBit (mv.fromSq - 1) = false := by
        intro q hq
        rcases Bool.eq_false_or_eq_true
          ((b.pieceAt q).testBit (mv.fromSq - 1)) with h' | h'
        · rcases (hInv.2.2 (mv.fromSq - 1)).2.2.mp ⟨q, hq, h'⟩ with hW | hB
          · exact absurd hW (by simp [hocc1.1])
          · exact absurd hB (by simp [hocc1.2])
        · exact h'
      exact ⟨hf4, ht2, hra, hrp, hocc1.1, hocc1.2, hq1⟩
    · intro h
      obtain ⟨_, hcf, hca, hcp⟩ := hEPh h
      exact ⟨hcf, hca, hcp⟩

/-- A successful `try_play_move` preserves the board invariant. -/
theorem try_play_preserves (b : Board) (mv : Move) (st : ZobristStack)
    (b' : Board) (st' : ZobristStack) (hInv : Inv b) (hOk : MoveOk b mv)
    (h : b.try_play_move mv st = (b', st', true)) : Inv b' := by
  have hInv1 := apply_core_preserves b mv hInv hOk
  unfold Board.try_play_move at h
  by_cases hc : (b.apply_move_core mv).in_check
  · rw [if_pos hc] at h
    exact absurd (congrArg (fun x => x.2.2) h) (by simp)
  · rw [if_neg hc] at h
    have hb := congrArg Prod.fst h
    simp only at hb
    rw [← hb]
    by_cases hr : b.piece_on_sq mv.fromSq = Piece.PAWN ∨ mv.is_capture = true
    · rw [if_pos hr]
      exact hInv1
    · rw [if_neg hr]
      exact hInv1

theorem lor_fresh_eq_xor {x : Nat} (k : Nat) (h : x.testBit k = false) :
    x ||| (1 <<< k) = x ^^^ (1 <<< k) := by
  apply Nat.eq_of_testBit_eq
  intro j
  rw [Nat.testBit_or, Nat.testBit_xor, testBit_one_shiftLeft]
  by_cases hj : k = j
  · subst hj
    simp [h]
  · simp [hj]

theorem from_char_lt (c : Char) (p : Nat) (h : Piece.from_char c = some p) :
    p < 6 := by
  unfold Piece.from_char at h
  split_ifs at h <;> simp_all [Piece.KNIGHT, Piece.BISHOP, Piece.ROOK,
    Piece.QUEEN, Piece.PAWN, Piece.KING] <;> omega

theorem parseGrid_inv : ∀ (cs : List Char) (b : Board) (i : Nat) (bd : Board)
    (j : Nat), InvP b → (∀ k, i ≤ k → b.occupied.testBit k = false) →
    Board.parseGrid cs b i = some (bd, j) → InvP bd := by
  intro cs
  induction cs with
  | nil =>
    intro b i bd j hInv _ h
    simp only [Board.parseGrid, Option.some.injEq, Prod.mk.injEq] at h
    rw [← h.1]
    exact hInv
  | cons c rest ih =>
    intro b i bd j hInv hfresh h
    simp only [Board.parseGrid] at h
    by_cases hsl : c = '/'
    · rw [if_pos hsl] at h
      exact ih b i bd j hInv hfresh h
    · rw [if_neg hsl] at h
      rcases hpc : Piece.from_char c with _ | p
      · simp only [hpc] at h
        rcases hd : digitVal c with _ | d
        · simp only [hd] at h
          exact Option.noConfusion h
        · simp only [hd] at h
          exact ih b (i + d) bd j hInv (fun k hk => hfresh k (by omega)) h
      · simp only [hpc] at h
        have hp6 : p < 6 := from_char_lt c p hpc
        by_cases hi : i < 64
        · rw [if_pos hi] at h
          have hWf : (b.allAt .White).testBit i = false := by
            have := hfresh i (le_refl i)
            rw [occupied_testBit, Bool.or_eq_false_iff] at this
            exact this.1
          have hBf : (b.allAt .Black).testBit i = false := by
            have := hfresh i (le_refl i)
            rw [occupied_testBit, Bool.or_eq_false_iff] at this
            exact this.2
          have hQf : ∀ q, q < 6 → (b.pieceAt q).testBit i = false := by
            intro q hq
            rcases Bool.eq_false_or_eq_true ((b.pieceAt q).testBit i)
              with h' | h'
            · rcases (hInv.2.2 i).2.2.mp ⟨q, hq, h'⟩ with hW | hB
              · exact absurd hW (by simp [hWf])
              · exact absurd hB (by simp [hBf])
            · exact h'
          have heq : ({ b with
              all := b.all.set (if c.isLower then Color.Black else
                Color.White).as_index
                (b.allAt (if c.isLower then Color.Black else Color.White) |||
                  1 <<< i)
              pieces := b.pieces.set p (b.pieceAt p ||| 1 <<< i) } : Board) =
              b.toggle (1 <<< i) p
                (if c.isLower then Color.Black else Color.White) := by
            unfold Board.toggle
            rw [lor_fresh_eq_xor i (by
                rcases hcl : c.isLower with _ | _
                · simpa [hcl] using hWf
                · simpa [hcl] using hBf),
              lor_fresh_eq_xor i (hQf p hp6)]
          rw [heq] at h
          have hInv' : InvP (b.toggle (1 <<< i) p
              (if c.isLower then Color.Black else Color.White)) :=
            toggle_preserves _ _ _ _ hp6 hInv (fun k hk => by
              rw [testBit_one_shiftLeft] at hk
              have h' := (by simpa using hk : i = k)
              subst h'
              exact Or.inr ⟨hWf, hBf, hQf⟩)
          have hfresh' : ∀ k, i + 1 ≤ k → (b.toggle (1 <<< i) p
              (if c.isLower then Color.Black else Color.White)).occupied.testBit
              k = false := by
            intro k hk
            rw [occupied_testBit, toggle_testBit_all _ _ _ _ hInv.1,
              toggle_testBit_all _ _ _ _ hInv.1, testBit_one_shiftLeft]
            have hik : decide (i = k) = false := by simp; omega
            rw [hik]
            have hof := hfresh k (by omega)
            rw [occupied_testBit, Bool.or_eq_false_iff] at hof
            simp [hof.1, hof.2]
          exact ih _ (i + 1) bd j hInv' hfresh' h
        · rw [if_neg hi] at h
          simp at h

theorem invP_new : InvP Board.new := by
  refine ⟨rfl, rfl, fun i => ?_⟩
  have hz : ∀ c : Color, (Board.new.allAt c).testBit i = false := by
    intro c
    cases c <;> simp [Board.new, Board.allAt, Color.as_index]
  have hq : ∀ q, q < 6 → (Board.new.pieceAt q).testBit i = false := by
    intro q hq
    interval_cases q <;> simp [Board.new, Board.pieceAt]
  refine ⟨by simp [hz Color.White], ?_, ?_⟩
  · intro q1 hq1 q2 hq2 _
    simp [hq q1 hq1]
  · constructor
    · rintro ⟨q, hq6, hbit⟩
      exact absurd hbit (by simp [hq q hq6])
    · intro h
      rcases h with h | h
      · exact absurd h (by simp [hz Color.White])
      · exact absurd h (by simp [hz Color.Black])

/-- Any successfully parsed FEN satisfies the board invariant. -/
theorem inv_of_fields (b b' : Board) (ha : b'.all = b.all)
    (hp : b'.pieces = b.pieces) (h : Inv b) : Inv b' := by
  simp only [Inv, unionPieces, Board.allAt, Board.pieceAt] at h ⊢
  rw [ha, hp]
  exact h

theorem from_fen_inv (cs : List Char) (bd : Board)
    (h : Board.from_fen cs = some bd) : Inv bd := by
  unfold Board.from_fen at h
  rcases hsp : splitWs cs with _ | ⟨piece_grid, _ | ⟨stmF,
    _ | ⟨castling, _ | ⟨ep, _ | ⟨halfmovesF, rest⟩⟩⟩⟩⟩ <;>
    simp only [hsp] at h <;> try exact Option.noConfusion h
  rcases hpg : Board.parseGrid piece_grid Board.new 0 with _ | ⟨b0, i0⟩ <;>
    simp only [hpg] at h
  · exact Option.noConfusion h
  by_cases hi : i0 = 64
  · rw [if_pos hi] at h
    rcases stmF with _ | ⟨stmc, stl⟩
    · exact Option.noConfusion h
    simp only at h
    rcases hst : Color.from_char stmc with _ | stm <;>
    rcases hhm : parseU16 halfmovesF with _ | hm <;>
    rcases hepv : Square.from_string ep with _ | epv <;>
      simp only [hst, hhm, hepv] at h <;>
      try exact Option.noConfusion h
    have hbd := Option.some.inj h
    have hInvP : InvP b0 :=
      parseGrid_inv piece_grid Board.new 0 b0 i0 invP_new
        (fun k _ => by simp [Board.new, Board.occupied, Board.allAt,
          Color.as_index]) hpg
    exact inv_of_fields b0 bd (by rw [← hbd]) (by rw [← hbd])
      ((inv_iff_invP b0).mpr hInvP)
  · rw [if_neg hi] at h
    exact Option.noConfusion h

/-- C7: every board reachable from a parsed FEN by successful
`try_play_move` applications of pseudo-legal moves and by null moves keeps
the two bitboard invariants: the union of the six piece-kind bitboards
equals the union of the two color occupancies, and the two color
occupancies are disjoint. -/
theorem reachable_inv (b : Board) (h : Reachable b) :
    unionPieces b = b.allAt .White ||| b.allAt .Black ∧
    b.allAt .White &&& b.allAt .Black = 0 := by
  have hInv : Inv b := by
    induction h with
    | root fen b hf => exact from_fen_inv fen b hf
    | step b mv st b' st' _ hOk hplay ih =>
      exact try_play_preserves b mv st b' st' ih hOk hplay
    | nullstep b st _ ih => exact ih
  exact ⟨hInv.2.2.2.2, hInv.2.2.1⟩

/-- Witness for C7: the parsed start position is reachable and satisfies
both invariants. -/
theorem reachable_inv_witness :
    unionPieces startBoard =
      startBoard.allAt .White ||| startBoard.allAt .Black ∧
    startBoard.allAt .White &&& startBoard.allAt .Black = 0 :=
  reachable_inv startBoard
    (Reachable.root START_FEN.toList startBoard (by decide))

/-! ## FEN round trip (C5) -/

theorem char_toNat_inj {c d : Char} (h : c.toNat = d.toNat) : c = d := by
  rw [← Char.ofNat_toNat c, h, Char.ofNat_toNat]

theorem not_ws_of_toNat {c : Char} (h1 : 33 ≤ c.toNat) (h2 : c.toNat ≤ 126) :
    c.isWhitespace = false := by
  simp only [Char.isWhitespace, Bool.or_eq_false_iff, decide_eq_false_iff_not]
  refine ⟨⟨⟨?_, ?_⟩, ?_⟩, ?_⟩ <;> rintro rfl <;> revert h1 h2 <;> decide

theorem as_char_from_char (c : Char) (p : Nat)
    (h : Piece.from_char c = some p) :
    Piece.as_char p (if c.isLower then Color.Black else Color.White) =
      some c := by
  unfold Piece.from_char at h
  split_ifs at h with h1 h2 h3 h4 h5 h6
  · obtain rfl := Option.some.inj h
    rcases h1 with rfl | rfl <;> decide
  · obtain rfl := Option.some.inj h
    rcases h2 with rfl | rfl <;> decide
  · obtain rfl := Option.some.inj h
    rcases h3 with rfl | rfl <;> decide
  · obtain rfl := Option.some.inj h
    rcases h4 with rfl | rfl <;> decide
  · obtain rfl := Option.some.inj h
    rcases h5 with rfl | rfl <;> decide
  · obtain rfl := Option.some.inj h
    rcases h6 with rfl | rfl <;> decide

theorem from_char_not_slash (c : Char) (p : Nat)
    (h : Piece.from_char c = some p) : c ≠ '/' := by
  unfold Piece.from_char at h
  split_ifs at h with h1 h2 h3 h4 h5 h6
  · rcases h1 with rfl | rfl <;> decide
  · rcases h2 with rfl | rfl <;> decide
  · rcases h3 with rfl | rfl <;> decide
  · rcases h4 with rfl | rfl <;> decide
  · rcases h5 with rfl | rfl <;> decide
  · rcases h6 with rfl | rfl <;> decide

theorem from_char_not_ws (c : Char) (p : Nat)
    (h : Piece.from_char c = some p) : c.isWhitespace = false := by
  unfold Piece.from_char at h
  split_ifs at h with h1 h2 h3 h4 h5 h6
  · rcases h1 with rfl | rfl <;> decide
  · rcases h2 with rfl | rfl <;> decide
  · rcases h3 with rfl | rfl <;> decide
  · rcases h4 with rfl | rfl <;> decide
  · rcases h5 with rfl | rfl <;> decide
  · rcases h6 with rfl | rfl <;> decide

theorem rankDigit_bounds {c : Char} (h : rankDigit c = true) :
    49 ≤ c.toNat ∧ c.toNat ≤ 56 := by
  simp only [rankDigit, decide_eq_true_eq] at h
  exact h

theorem rankDigit_from_char {c : Char} (h : rankDigit c = true) :
    Piece.from_char c = none := by
  have hb := rankDigit_bounds h
  unfold Piece.from_char
  split_ifs with h1 h2 h3 h4 h5 h6
  · rcases h1 with rfl | rfl <;> revert hb <;> decide
  · rcases h2 with rfl | rfl <;> revert hb <;> decide
  · rcases h3 with rfl | rfl <;> revert hb <;> decide
  · rcases h4 with rfl | rfl <;> revert hb <;> decide
  · rcases h5 with rfl | rfl <;> revert hb <;> decide
  · rcases h6 with rfl | rfl <;> revert hb <;> decide
  · rfl

theorem rankDigit_not_slash {c : Char} (h : rankDigit c = true) : c ≠ '/' := by
  have hb := rankDigit_bounds h
  rintro rfl
  revert hb
  decide

theorem rankDigit_digitVal {c : Char} (h : rankDigit c = true) :
    digitVal c = some (c.toNat - 48) := by
  have hb := rankDigit_bounds h
  have h0 : '0'.toNat = 48 := by decide
  have h9 : '9'.toNat = 57 := by decide
  unfold digitVal
  rw [if_pos ⟨by omega, by omega⟩]

theorem digitChar_toNat {c : Char} (h1 : 48 ≤ c.toNat) (h2 : c.toNat ≤ 57) :
    digitChar (c.toNat - 48) = c := by
  unfold digitChar
  rw [show 48 + (c.toNat - 48) = c.toNat by omega, Char.ofNat_toNat]

theorem splitWsGo_word : ∀ (w rest acc : List Char),
    (∀ c ∈ w, c.isWhitespace = false) →
    splitWsGo (w ++ rest) acc = splitWsGo rest (acc ++ w) := by
  intro w
  induction w with
  | nil => intro rest acc _; rw [List.nil_append, List.append_nil]
  | cons c w' ih =>
    intro rest acc hw
    rw [List.cons_append]
    show (if c.isWhitespace then _ else splitWsGo (w' ++ rest) (acc ++ [c])) = _
    rw [if_neg (by simp [hw c (List.mem_cons_self c w')]),
      ih rest (acc ++ [c]) (fun d hd => hw d (List.mem_cons_of_mem c hd)),
      List.append_assoc]
    rfl

theorem splitWsGo_space (rest acc : List Char) (h : acc ≠ []) :
    splitWsGo (' ' :: rest) acc = acc :: splitWsGo rest [] := by
  show (if (' ').isWhitespace then
      if acc.isEmpty then splitWsGo rest [] else acc :: splitWsGo rest []
    else _) = _
  rw [if_pos (by decide), if_neg (by simp [h])]

theorem splitWsGo_last (acc : List Char) (h : acc ≠ []) :
    splitWsGo [] acc = [acc] := by
  show (if acc.isEmpty then [] else [acc]) = [acc]
  rw [if_neg (by simp [h])]

theorem validSeg_not_ws : ∀ s, validSeg s = true →
    ∀ c ∈ s, c.isWhitespace = false := by
  intro s
  induction s with
  | nil => intro _ c hc; exact absurd hc (List.not_mem_nil c)
  | cons c0 rest ih =>
    intro hv c hc
    simp only [validSeg] at hv
    by_cases hpc : pieceChar c0 = true
    · rw [if_pos hpc] at hv
      rcases List.mem_cons.mp hc with rfl | hc'
      · simp only [pieceChar, Option.isSome_iff_exists] at hpc
        obtain ⟨p, hp⟩ := hpc
        exact from_char_not_ws c p hp
      · exact ih hv c hc'
    · rw [if_neg hpc] at hv
      simp only [Bool.and_eq_true] at hv
      rcases List.mem_cons.mp hc with rfl | hc'
      · have hb := rankDigit_bounds hv.1.1
        exact not_ws_of_toNat (by omega) (by omega)
      · exact ih hv.2 c hc'

theorem validSeg_ne_nil (s : List Char) (hv : validSeg s = true)
    (hw : segWeight s = 8) : s ≠ [] := by
  rintro rfl
  simp [segWeight] at hw

theorem joinSlash_not_ws : ∀ segs, (∀ s ∈ segs, validSeg s = true) →
    ∀ c ∈ joinSlash segs, c.isWhitespace = false := by
  intro segs
  induction segs with
  | nil => intro _ c hc; exact absurd hc (List.not_mem_nil c)
  | cons s rest ih =>
    intro hv c hc
    rcases rest with _ | ⟨s', rest'⟩
    · exact validSeg_not_ws s (hv s (List.mem_cons_self s [])) c
        (by simpa [joinSlash] using hc)
    · rw [show joinSlash (s :: s' :: rest') = s ++ '/' :: joinSlash (s' :: rest')
          from rfl] at hc
      rcases List.mem_append.mp hc with hc' | hc'
      · exact validSeg_not_ws s (hv s (List.mem_cons_self s (s' :: rest'))) c hc'
      · rcases List.mem_cons.mp hc' with rfl | hc''
        · decide
        · exact ih (fun t ht => hv t (List.mem_cons_of_mem s ht)) c hc''

theorem joinSlash_cons_ne_nil (s : List Char) (rest : List (List Char))
    (hs : s ≠ []) : joinSlash (s :: rest) ≠ [] := by
  rcases rest with _ | ⟨s', rest'⟩
  · simpa [joinSlash] using hs
  · show s ++ '/' :: joinSlash (s' :: rest') ≠ []
    simp

theorem piece_on_sq_of_bits (b : Board) (sq p : Nat) (hp : p < 6)
    (hset : (b.pieceAt p).testBit sq = true)
    (hothers : ∀ q, q < 6 → q ≠ p → (b.pieceAt q).testBit sq = false) :
    b.piece_on_sq sq = p := by
  have hc : ∀ x, ((1 <<< sq) &&& x ≠ 0) = (x.testBit sq = true) :=
    fun x => propext (land_one_shiftLeft_ne_zero sq x)
  simp only [Board.piece_on_sq, Piece.KNIGHT, Piece.BISHOP, Piece.ROOK,
    Piece.QUEEN, Piece.PAWN, Piece.KING, hc]
  interval_cases p
  · rw [if_pos hset]
  · rw [if_neg (by simp [hothers 0 (by omega) (by omega)]), if_pos hset]
  · rw [if_neg (by simp [hothers 0 (by omega) (by omega)]),
      if_neg (by simp [hothers 1 (by omega) (by omega)]), if_pos hset]
  · rw [if_neg (by simp [hothers 0 (by omega) (by omega)]),
      if_neg (by simp [hothers 1 (by omega) (by omega)]),
      if_neg (by simp [hothers 2 (by omega) (by omega)]), if_pos hset]
  · rw [if_neg (by simp [hothers 0 (by omega) (by omega)]),
      if_neg (by simp [hothers 1 (by omega) (by omega)]),
      if_neg (by simp [hothers 2 (by omega) (by omega)]),
      if_neg (by simp [hothers 3 (by omega) (by omega)]), if_pos hset]
  · rw [if_neg (by simp [hothers 0 (by omega) (by omega)]),
      if_neg (by simp [hothers 1 (by omega) (by omega)]),
      if_neg (by simp [hothers 2 (by omega) (by omega)]),
      if_neg (by simp [hothers 3 (by omega) (by omega)]),
      if_neg (by simp [hothers 4 (by omega) (by omega)]), if_pos hset]

theorem piece_on_sq_none_of_bits (b : Board) (sq : Nat)
    (h : ∀ q, q < 6 → (b.pieceAt q).testBit sq = false) :
    b.piece_on_sq sq = Piece.NONE := by
  have hc : ∀ x, ((1 <<< sq) &&& x ≠ 0) = (x.testBit sq = true) :=
    fun x => propext (land_one_shiftLeft_ne_zero sq x)
  simp only [Board.piece_on_sq, Piece.KNIGHT, Piece.BISHOP, Piece.ROOK,
    Piece.QUEEN, Piece.PAWN, Piece.KING, hc]
  rw [if_neg (by simp [h 0 (by omega)]), if_neg (by simp [h 1 (by omega)]),
    if_neg (by simp [h 2 (by omega)]), if_neg (by simp [h 3 (by omega)]),
    if_neg (by simp [h 4 (by omega)]), if_neg (by simp [h 5 (by omega)])]

theorem cell_agree (b b' : Board) (k : Nat) (h : BitsAgree b b' k) :
    b'.piece_on_sq k = b.piece_on_sq k ∧ b'.colorOn k = b.colorOn k := by
  obtain ⟨hA, hP⟩ := h
  have hc : ∀ x, ((1 <<< k) &&& x ≠ 0) = (x.testBit k = true) :=
    fun x => propext (land_one_shiftLeft_ne_zero k x)
  constructor
  · simp only [Board.piece_on_sq, Piece.KNIGHT, Piece.BISHOP, Piece.ROOK,
      Piece.QUEEN, Piece.PAWN, Piece.KING, hc]
    rw [hP 0 (by omega), hP 1 (by omega), hP 2 (by omega), hP 3 (by omega),
      hP 4 (by omega), hP 5 (by omega)]
  · simp only [Board.colorOn, hc]
    rw [hA Color.White, hA Color.Black]

theorem bitsAgree_trans {b1 b2 b3 : Board} {k : Nat} (h1 : BitsAgree b1 b2 k)
    (h2 : BitsAgree b2 b3 k) : BitsAgree b1 b3 k :=
  ⟨fun c => (h2.1 c).trans (h1.1 c),
   fun q hq => (h2.2 q hq).trans (h1.2 q hq)⟩

theorem cellsMatch_agree : ∀ (seg : List Char) (b b' : Board) (sq : Nat),
    (∀ k, sq ≤ k → k < sq + segWeight seg → BitsAgree b b' k) →
    CellsMatch b sq seg → CellsMatch b' sq seg := by
  intro seg
  induction seg with
  | nil =>
    intro b b' sq _ _
    simp [CellsMatch]
  | cons c rest ih =>
    intro b b' sq hk hm
    simp only [CellsMatch] at hm ⊢
    rcases hpc : Piece.from_char c with _ | p
    · simp only [hpc] at hm ⊢
      have hd : pieceChar c = false := by simp [pieceChar, hpc]
      have hw : segWeight (c :: rest) =
          (digitVal c).getD 0 + segWeight rest := by
        simp [segWeight, hd]
      obtain ⟨hemp, hm'⟩ := hm
      refine ⟨fun j hj => ?_, ?_⟩
      · rw [(cell_agree b b' (sq + j)
          (hk (sq + j) (by omega) (by rw [hw]; omega))).1]
        exact hemp j hj
      · exact ih b b' (sq + (digitVal c).getD 0)
          (fun k h1 h2 => hk k (by omega) (by rw [hw]; omega)) hm'
    · simp only [hpc] at hm ⊢
      have hd : pieceChar c = true := by simp [pieceChar, hpc]
      have hw : segWeight (c :: rest) = 1 + segWeight rest := by
        simp [segWeight, hd]
      obtain ⟨hsq, hcol, hm'⟩ := hm
      have hag := cell_agree b b' sq (hk sq (by omega) (by rw [hw]; omega))
      refine ⟨hag.1.trans hsq, hag.2.trans hcol, ?_⟩
      exact ih b b' (sq + 1)
        (fun k h1 h2 => hk k (by omega) (by rw [hw]; omega)) hm'

theorem cellsRows_agree : ∀ (segs : List (List Char)) (b b' : Board)
    (sq : Nat), (∀ k, BitsAgree b b' k) →
    CellsRows b sq segs → CellsRows b' sq segs := by
  intro segs
  induction segs with
  | nil =>
    intro b b' sq _ _
    simp [CellsRows]
  | cons s rest ih =>
    intro b b' sq hk hm
    simp only [CellsRows] at hm ⊢
    exact ⟨cellsMatch_agree s b b' sq (fun k _ _ => hk k) hm.1,
      ih b b' (sq + 8) hk hm.2⟩

theorem emitRankGo_flush (b : Board) (cols sq e : Nat)
    (h : cols = 0 ∨ b.piece_on_sq sq ≠ Piece.NONE) :
    Board.emitRankGo b cols sq e =
      (Board.emitRankGo b cols sq 0).map
        (fun l => (if 0 < e then [digitChar e] else []) ++ l) := by
  rcases cols with _ | cols'
  · simp [Board.emitRankGo]
  · have hne : b.piece_on_sq sq ≠ Piece.NONE := by
      rcases h with h | h
      · exact absurd h (by omega)
      · exact h
    simp only [Board.emitRankGo]
    rw [if_neg hne, if_neg hne]
    rcases hcol : b.colorOn sq with _ | col
    · simp
    · simp only []
      rcases hch : Piece.as_char (b.piece_on_sq sq) col with _ | ch
      · simp
      · simp only []
        rcases hrec : Board.emitRankGo b cols' (sq + 1) 0 with _ | restl
        · simp
        · simp

theorem emitRankGo_empties (b : Board) : ∀ (j cols sq e : Nat),
    (∀ k, k < j → b.piece_on_sq (sq + k) = Piece.NONE) →
    Board.emitRankGo b (j + cols) sq e =
      Board.emitRankGo b cols (sq + j) (e + j) := by
  intro j
  induction j with
  | zero => intro cols sq e _; simp
  | succ j' ih =>
    intro cols sq e hemp
    rw [show j' + 1 + cols = (j' + cols) + 1 by omega]
    simp only [Board.emitRankGo]
    rw [if_pos (by simpa using hemp 0 (by omega))]
    rw [ih cols (sq + 1) (e + 1) (fun k hk => by
      have h' := hemp (k + 1) (by omega)
      rwa [show sq + (k + 1) = sq + 1 + k by omega] at h')]
    rw [show sq + 1 + j' = sq + (j' + 1) by omega,
      show e + 1 + j' = e + (j' + 1) by omega]

theorem emitRank_of_cellsMatch (b : Board) : ∀ (seg : List Char) (sq : Nat),
    validSeg seg = true → CellsMatch b sq seg →
    Board.emitRankGo b (segWeight seg) sq 0 = some seg := by
  intro seg
  induction seg with
  | nil =>
    intro sq _ _
    simp [segWeight, Board.emitRankGo]
  | cons c rest ih =>
    intro sq hv hm
    simp only [CellsMatch] at hm
    simp only [validSeg] at hv
    rcases hpc : Piece.from_char c with _ | p
    · -- empty-run digit
      simp only [hpc] at hm
      have hd : pieceChar c = false := by simp [pieceChar, hpc]
      rw [if_neg (by simp [hd])] at hv
      simp only [Bool.and_eq_true] at hv
      obtain ⟨⟨hrd, hnext⟩, hvr⟩ := hv
      have hb := rankDigit_bounds hrd
      have hgd : (digitVal c).getD 0 = c.toNat - 48 := by
        rw [rankDigit_digitVal hrd]
        rfl
      obtain ⟨hemp, hm'⟩ := hm
      rw [hgd] at hemp hm'
      have hdc : digitChar (c.toNat - 48) = c :=
        digitChar_toNat (by omega) (by omega)
      have hw : segWeight (c :: rest) = (c.toNat - 48) + segWeight rest := by
        simp [segWeight, hd, hgd]
      rw [hw, emitRankGo_empties b (c.toNat - 48) (segWeight rest) sq 0 hemp,
        Nat.zero_add]
      rcases rest with _ | ⟨c', rest'⟩
      · simp only [segWeight, Board.emitRankGo]
        rw [if_pos (by omega), hdc]
      · simp only [] at hnext
        have hp' : ∃ p', Piece.from_char c' = some p' := by
          simpa [pieceChar, Option.isSome_iff_exists] using hnext
        obtain ⟨p', hp'⟩ := hp'
        have hc'ne : b.piece_on_sq (sq + (c.toNat - 48)) ≠ Piece.NONE := by
          simp only [CellsMatch, hp'] at hm'
          rw [hm'.1]
          have := from_char_lt c' p' hp'
          simp [Piece.NONE]
          omega
        rw [emitRankGo_flush b (segWeight (c' :: rest'))
          (sq + (c.toNat - 48)) (c.toNat - 48) (Or.inr hc'ne),
          ih (sq + (c.toNat - 48)) hvr hm']
        rw [if_pos (by omega), hdc]
        rfl
    · -- piece character
      simp only [hpc] at hm
      obtain ⟨hsq, hcol, hm'⟩ := hm
      have hd : pieceChar c = true := by simp [pieceChar, hpc]
      rw [if_pos hd] at hv
      have hne : b.piece_on_sq sq ≠ Piece.NONE := by
        rw [hsq]
        have := from_char_lt c p hpc
        simp [Piece.NONE]
        omega
      have hw : segWeight (c :: rest) = segWeight rest + 1 := by
        simp [segWeight, hd]
        omega
      rw [hw]
      simp only [Board.emitRankGo]
      rw [if_neg hne]
      simp only [hcol, hsq, as_char_from_char c p hpc,
        ih (sq + 1) hv hm']
      simp

theorem emitGridGo_succ (b : Board) (ranks sq : Nat) :
    Board.emitGridGo b (ranks + 1) sq =
      match Board.emitRankGo b 8 sq 0 with
      | none => none
      | some rank =>
        match Board.emitGridGo b ranks (sq + 8) with
        | none => none
        | some rest =>
          some (rank ++ (if sq + 8 < 64 then ['/'] else []) ++ rest) := rfl

theorem emitGrid_of_cells (b : Board) : ∀ (segs : List (List Char)) (sq : Nat),
    sq + 8 * segs.length = 64 →
    (∀ s ∈ segs, validSeg s = true ∧ segWeight s = 8) →
    CellsRows b sq segs →
    Board.emitGridGo b segs.length sq = some (joinSlash segs) := by
  intro segs
  induction segs with
  | nil =>
    intro sq _ _ _
    rfl
  | cons s rest ih =>
    intro sq hlen hv hm
    simp only [CellsRows] at hm
    have hsv := hv s (List.mem_cons_self s rest)
    have hrank : Board.emitRankGo b 8 sq 0 = some s := by
      rw [← hsv.2]
      exact emitRank_of_cellsMatch b s sq hsv.1 hm.1
    simp only [List.length_cons]
    rw [emitGridGo_succ]
    rcases rest with _ | ⟨s', rest'⟩
    · have hsq : sq = 56 := by
        simp [List.length] at hlen
        omega
      subst hsq
      simp only [hrank]
      rw [if_neg (by omega)]
      simp [joinSlash, Board.emitGridGo]
    · have hlen' : (sq + 8) + 8 * (s' :: rest').length = 64 := by
        simp [List.length_cons] at hlen ⊢
        omega
      have hih := ih (sq + 8) hlen'
        (fun t ht => hv t (List.mem_cons_of_mem s ht)) hm.2
      simp only [hrank, hih]
      rw [if_pos (by simp [List.length_cons] at hlen; omega)]
      simp [joinSlash]

theorem parseGrid_slash (xs : List Char) (b : Board) (i : Nat) :
    Board.parseGrid ('/' :: xs) b i = Board.parseGrid xs b i := by
  simp [Board.parseGrid]

theorem colorOn_of_bits (b : Board) (sq : Nat) (c : Color)
    (hset : (b.allAt c).testBit sq = true)
    (hother : ∀ c', c' ≠ c → (b.allAt c').testBit sq = false) :
    b.colorOn sq = some c := by
  cases c
  · simp only [Board.colorOn]
    rw [if_pos ((land_one_shiftLeft_ne_zero sq _).mpr hset)]
  · simp only [Board.colorOn]
    rw [if_neg (by
        simp only [ne_eq, land_one_shiftLeft_ne_zero, not_not]
        simp [hother Color.White (by simp)]),
      if_pos ((land_one_shiftLeft_ne_zero sq _).mpr hset)]

theorem color_as_index_ne {c c' : Color} (h : c' ≠ c) :
    c.as_index ≠ c'.as_index := by
  cases c <;> cases c' <;> simp_all [Color.as_index]

theorem place_agree (b : Board) (i p : Nat) (cidx : Color) (hp6 : p < 6)
    (hA : b.all.length = 2) (hP : b.pieces.length = 6) :
    ∀ b1 : Board, b1 = { b with
      all := b.all.set cidx.as_index (b.allAt cidx ||| 1 <<< i)
      pieces := b.pieces.set p (b.pieceAt p ||| 1 <<< i) } →
    ∀ k, k ≠ i → BitsAgree b b1 k := by
  intro b1 hb1 k hk
  have hAval : ∀ c' : Color, b1.allAt c' =
      if c' = cidx then b.allAt cidx ||| 1 <<< i else b.allAt c' := by
    intro c'
    by_cases hc : c' = cidx
    · subst hc
      rw [if_pos rfl, hb1]
      exact getD_set_self (by rw [hA]; cases c' <;> decide)
    · rw [if_neg hc, hb1]
      exact getD_set_ne (color_as_index_ne hc)
  have hPval : ∀ q : Nat, b1.pieceAt q =
      if q = p then b.pieceAt p ||| 1 <<< i else b.pieceAt q := by
    intro q
    by_cases hq : q = p
    · subst hq
      rw [if_pos rfl, hb1]
      exact getD_set_self (by omega)
    · rw [if_neg hq, hb1]
      exact getD_set_ne (Ne.symm hq)
  constructor
  · intro c'
    rw [hAval c']
    by_cases hc : c' = cidx
    · rw [if_pos hc, hc, Nat.testBit_or, testBit_one_shiftLeft]
      simp
      omega
    · rw [if_neg hc]
  · intro q hq
    rw [hPval q]
    by_cases hqp : q = p
    · rw [if_pos hqp, hqp, Nat.testBit_or, testBit_one_shiftLeft]
      simp
      omega
    · rw [if_neg hqp]

theorem place_at_i (b : Board) (i p : Nat) (cidx : Color) (hp6 : p < 6)
    (hA : b.all.length = 2) (hP : b.pieces.length = 6)
    (hfA0 : ∀ c' : Color, (b.allAt c').testBit i = false)
    (hfP0 : ∀ q, q < 6 → (b.pieceAt q).testBit i = false) :
    ∀ b1 : Board, b1 = { b with
      all := b.all.set cidx.as_index (b.allAt cidx ||| 1 <<< i)
      pieces := b.pieces.set p (b.pieceAt p ||| 1 <<< i) } →
    (b1.pieceAt p).testBit i = true ∧
    (∀ q, q < 6 → q ≠ p → (b1.pieceAt q).testBit i = false) ∧
    (b1.allAt cidx).testBit i = true ∧
    (∀ c', c' ≠ cidx → (b1.allAt c').testBit i = false) := by
  intro b1 hb1
  have hAval : ∀ c' : Color, b1.allAt c' =
      if c' = cidx then b.allAt cidx ||| 1 <<< i else b.allAt c' := by
    intro c'
    by_cases hc : c' = cidx
    · subst hc
      rw [if_pos rfl, hb1]
      exact getD_set_self (by rw [hA]; cases c' <;> decide)
    · rw [if_neg hc, hb1]
      exact getD_set_ne (color_as_index_ne hc)
  have hPval : ∀ q : Nat, b1.pieceAt q =
      if q = p then b.pieceAt p ||| 1 <<< i else b.pieceAt q := by
    intro q
    by_cases hq : q = p
    · subst hq
      rw [if_pos rfl, hb1]
      exact getD_set_self (by omega)
    · rw [if_neg hq, hb1]
      exact getD_set_ne (Ne.symm hq)
  refine ⟨?_, ?_, ?_, ?_⟩
  · rw [hPval p, if_pos rfl, Nat.testBit_or, testBit_one_shiftLeft]
    simp
  · intro q hq hqp
    rw [hPval q, if_neg hqp]
    exact hfP0 q hq
  · rw [hAval cidx, if_pos rfl, Nat.testBit_or, testBit_one_shiftLeft]
    simp
  · intro c' hc
    rw [hAval c', if_neg hc]
    exact hfA0 c'

theorem parseGrid_frame : ∀ (cs : List Char) (b : Board) (i : Nat)
    (b' : Board) (i' : Nat), Board.parseGrid cs b i = some (b', i') →
    b.all.length = 2 → b.pieces.length = 6 →
    i ≤ i' ∧ b'.all.length = 2 ∧ b'.pieces.length = 6 ∧
    ∀ k, k < i → BitsAgree b b' k := by
  intro cs
  induction cs with
  | nil =>
    intro b i b' i' h hA hP
    simp only [Board.parseGrid, Option.some.injEq, Prod.mk.injEq] at h
    obtain ⟨rfl, rfl⟩ := h
    exact ⟨le_refl i, hA, hP, fun k _ => ⟨fun c => rfl, fun q _ => rfl⟩⟩
  | cons c rest ih =>
    intro b i b' i' h hA hP
    simp only [Board.parseGrid] at h
    by_cases hsl : c = '/'
    · rw [if_pos hsl] at h
      exact ih b i b' i' h hA hP
    · rw [if_neg hsl] at h
      rcases hpc : Piece.from_char c with _ | p
      · simp only [hpc] at h
        rcases hdv : digitVal c with _ | d
        · simp only [hdv] at h
          exact Option.noConfusion h
        · simp only [hdv] at h
          obtain ⟨hle, hA', hP', hag⟩ := ih b (i + d) b' i' h hA hP
          exact ⟨by omega, hA', hP', fun k hk => hag k (by omega)⟩
      · simp only [hpc] at h
        by_cases hi : i < 64
        · rw [if_pos hi] at h
          have hag1 := place_agree b i p
            (if c.isLower then Color.Black else Color.White)
            (from_char_lt c p hpc) hA hP _ rfl
          obtain ⟨hle, hA', hP', hag⟩ := ih _ (i + 1) b' i' h
            (by simpa using hA) (by simpa using hP)
          exact ⟨by omega, hA', hP', fun k hk =>
            bitsAgree_trans (hag1 k (by omega)) (hag k (by omega))⟩
        · rw [if_neg hi] at h
          exact Option.noConfusion h

theorem parseGrid_seg : ∀ (seg rest : List Char) (b : Board) (i : Nat),
    validSeg seg = true → i + segWeight seg ≤ 64 →
    b.all.length = 2 → b.pieces.length = 6 →
    (∀ k, i ≤ k → ∀ c : Color, (b.allAt c).testBit k = false) →
    (∀ k, i ≤ k → ∀ q, q < 6 → (b.pieceAt q).testBit k = false) →
    ∃ b2, Board.parseGrid (seg ++ rest) b i =
        Board.parseGrid rest b2 (i + segWeight seg) ∧
      b2.all.length = 2 ∧ b2.pieces.length = 6 ∧
      (∀ k, i + segWeight seg ≤ k → ∀ c : Color,
        (b2.allAt c).testBit k = false) ∧
      (∀ k, i + segWeight seg ≤ k → ∀ q, q < 6 →
        (b2.pieceAt q).testBit k = false) ∧
      (∀ k, k < i → BitsAgree b b2 k) ∧
      CellsMatch b2 i seg := by
  intro seg
  induction seg with
  | nil =>
    intro rest b i _ _ hA hP hfA hfP
    refine ⟨b, by simp [segWeight], hA, hP, ?_, ?_, ?_, ?_⟩
    · intro k hk
      exact hfA k (by simpa [segWeight] using hk)
    · intro k hk
      exact hfP k (by simpa [segWeight] using hk)
    · exact fun k _ => ⟨fun c => rfl, fun q _ => rfl⟩
    · simp [CellsMatch]
  | cons c rest' ih =>
    intro rest b i hv hle hA hP hfA hfP
    simp only [validSeg] at hv
    rcases hpc : Piece.from_char c with _ | p
    · -- empty-run digit: the square counter advances, the board is unchanged
      have hd : pieceChar c = false := by simp [pieceChar, hpc]
      rw [if_neg (by simp [hd])] at hv
      simp only [Bool.and_eq_true] at hv
      obtain ⟨⟨hrd, _⟩, hvr⟩ := hv
      have hb := rankDigit_bounds hrd
      have hdv := rankDigit_digitVal hrd
      have hgd : (digitVal c).getD 0 = c.toNat - 48 := by rw [hdv]; rfl
      have hw : segWeight (c :: rest') = (c.toNat - 48) + segWeight rest' := by
        simp [segWeight, hd, hgd]
      have hstep : Board.parseGrid ((c :: rest') ++ rest) b i =
          Board.parseGrid (rest' ++ rest) b (i + (c.toNat - 48)) := by
        rw [List.cons_append]
        simp only [Board.parseGrid]
        rw [if_neg (rankDigit_not_slash hrd)]
        simp only [hpc, hdv]
      obtain ⟨b2, heq, hA2, hP2, hfA2, hfP2, hag2, hcm2⟩ :=
        ih rest b (i + (c.toNat - 48)) hvr (by omega) hA hP
          (fun k hk => hfA k (by omega)) (fun k hk => hfP k (by omega))
      refine ⟨b2, ?_, hA2, hP2, ?_, ?_, ?_, ?_⟩
      · rw [hstep, heq, show i + (c.toNat - 48) + segWeight rest' =
          i + segWeight (c :: rest') by rw [hw]; omega]
      · intro k hk
        exact hfA2 k (by rw [hw] at hk; omega)
      · intro k hk
        exact hfP2 k (by rw [hw] at hk; omega)
      · exact fun k hk => hag2 k (by omega)
      · simp only [CellsMatch, hpc, hgd]
        refine ⟨fun j hj => ?_, hcm2⟩
        apply piece_on_sq_none_of_bits
        intro q hq
        rw [(hag2 (i + j) (by omega)).2 q hq]
        exact hfP (i + j) (by omega) q hq
    · -- piece character: one square is placed
      have hd : pieceChar c = true := by simp [pieceChar, hpc]
      rw [if_pos hd] at hv
      have hp6 := from_char_lt c p hpc
      have hw : segWeight (c :: rest') = 1 + segWeight rest' := by
        simp [segWeight, hd]
      have hi : i < 64 := by omega
      have hstep : Board.parseGrid ((c :: rest') ++ rest) b i =
          Board.parseGrid (rest' ++ rest) ({ b with
            all := b.all.set
              (if c.isLower then Color.Black else Color.White).as_index
              (b.allAt (if c.isLower then Color.Black else Color.White) |||
                1 <<< i)
            pieces := b.pieces.set p (b.pieceAt p ||| 1 <<< i) } : Board)
            (i + 1) := by
        rw [List.cons_append]
        simp only [Board.parseGrid]
        rw [if_neg (from_char_not_slash c p hpc)]
        simp only [hpc]
        rw [if_pos hi]
      have hag1 := place_agree b i p
        (if c.isLower then Color.Black else Color.White) hp6 hA hP _ rfl
      obtain ⟨hpbit, hpoth, habit, haoth⟩ := place_at_i b i p
        (if c.isLower then Color.Black else Color.White) hp6 hA hP
        (fun c' => hfA i (le_refl i) c') (fun q hq => hfP i (le_refl i) q hq)
        _ rfl
      have hA1 : ({ b with
          all := b.all.set
            (if c.isLower then Color.Black else Color.White).as_index
            (b.allAt (if c.isLower then Color.Black else Color.White) |||
              1 <<< i)
          pieces := b.pieces.set p (b.pieceAt p ||| 1 <<< i) } :
            Board).all.length = 2 := by
        simpa using hA
      have hP1 : ({ b with
          all := b.all.set
            (if c.isLower then Color.Black else Color.White).as_index
            (b.allAt (if c.isLower then Color.Black else Color.White) |||
              1 <<< i)
          pieces := b.pieces.set p (b.pieceAt p ||| 1 <<< i) } :
            Board).pieces.length = 6 := by
        simpa using hP
      have hfA1 : ∀ k, i + 1 ≤ k → ∀ c' : Color, (({ b with
          all := b.all.set
            (if c.isLower then Color.Black else Color.White).as_index
            (b.allAt (if c.isLower then Color.Black else Color.White) |||
              1 <<< i)
          pieces := b.pieces.set p (b.pieceAt p ||| 1 <<< i) } :
            Board).allAt c').testBit k = false := by
        intro k hk c'
        rw [(hag1 k (by omega)).1 c']
        exact hfA k (by omega) c'
      have hfP1 : ∀ k, i + 1 ≤ k → ∀ q, q < 6 → (({ b with
          all := b.all.set
            (if c.isLower then Color.Black else Color.White).as_index
            (b.allAt (if c.isLower then Color.Black else Color.White) |||
              1 <<< i)
          pieces := b.pieces.set p (b.pieceAt p ||| 1 <<< i) } :
            Board).pieceAt q).testBit k = false := by
        intro k hk q hq
        rw [(hag1 k (by omega)).2 q hq]
        exact hfP k (by omega) q hq
      obtain ⟨b2, heq, hA2, hP2, hfA2, hfP2, hag2, hcm2⟩ :=
        ih rest _ (i + 1) hv (by omega) hA1 hP1 hfA1 hfP1
      refine ⟨b2, ?_, hA2, hP2, ?_, ?_, ?_, ?_⟩
      · rw [hstep, heq, show i + 1 + segWeight rest' =
          i + segWeight (c :: rest') by rw [hw]; omega]
      · intro k hk
        exact hfA2 k (by rw [hw] at hk; omega)
      · intro k hk
        exact hfP2 k (by rw [hw] at hk; omega)
      · intro k hk
        exact bitsAgree_trans (hag1 k (by omega)) (hag2 k (by omega))
      · simp only [CellsMatch, hpc]
        have hagi := hag2 i (by omega)
        refine ⟨?_, ?_, hcm2⟩
        · apply piece_on_sq_of_bits b2 i p hp6
          · rw [hagi.2 p hp6]
            exact hpbit
          · intro q hq hqp
            rw [hagi.2 q hq]
            exact hpoth q hq hqp
        · apply colorOn_of_bits
          · rw [hagi.1]
            exact habit
          · intro c' hc
            rw [hagi.1 c']
            exact haoth c' hc

theorem parseGrid_segs : ∀ (segs : List (List Char)) (rest : List Char)
    (b : Board) (i : Nat),
    (∀ s ∈ segs, validSeg s = true ∧ segWeight s = 8) →
    i + 8 * segs.length ≤ 64 →
    b.all.length = 2 → b.pieces.length = 6 →
    (∀ k, i ≤ k → ∀ c : Color, (b.allAt c).testBit k = false) →
    (∀ k, i ≤ k → ∀ q, q < 6 → (b.pieceAt q).testBit k = false) →
    ∃ b2, Board.parseGrid (joinSlash segs ++ rest) b i =
        Board.parseGrid rest b2 (i + 8 * segs.length) ∧
      b2.all.length = 2 ∧ b2.pieces.length = 6 ∧
      (∀ k, k < i → BitsAgree b b2 k) ∧
      CellsRows b2 i segs := by
  intro segs
  induction segs with
  | nil =>
    intro rest b i _ _ hA hP _ _
    exact ⟨b, by simp [joinSlash], hA, hP,
      fun k _ => ⟨fun c => rfl, fun q _ => rfl⟩, by simp [CellsRows]⟩
  | cons s tl ih =>
    intro rest b i hv hle hA hP hfA hfP
    have hs := hv s (List.mem_cons_self s tl)
    rcases tl with _ | ⟨s', tl'⟩
    · obtain ⟨b2, heq, hA2, hP2, _, _, hag2, hcm2⟩ :=
        parseGrid_seg s rest b i hs.1
          (by rw [hs.2]; simpa using hle) hA hP hfA hfP
      refine ⟨b2, ?_, hA2, hP2, hag2, ?_⟩
      · rw [show i + 8 * ([s] : List (List Char)).length = i + segWeight s by
          rw [hs.2]; simp]
        simpa [joinSlash] using heq
      · simp only [CellsRows]
        exact ⟨hcm2, by simp [CellsRows]⟩
    · obtain ⟨b1, heq1, hA1, hP1, hfA1, hfP1, hag1, hcm1⟩ :=
        parseGrid_seg s ('/' :: (joinSlash (s' :: tl') ++ rest)) b i hs.1
          (by rw [hs.2]; simp [List.length_cons] at hle; omega) hA hP hfA hfP
      rw [hs.2] at heq1 hfA1 hfP1
      obtain ⟨b2, heq2, hA2, hP2, hag2, hcr2⟩ :=
        ih rest b1 (i + 8) (fun t ht => hv t (List.mem_cons_of_mem s ht))
          (by simp [List.length_cons] at hle ⊢; omega) hA1 hP1 hfA1 hfP1
      refine ⟨b2, ?_, hA2, hP2, ?_, ?_⟩
      · show Board.parseGrid ((s ++ '/' :: joinSlash (s' :: tl')) ++ rest)
          b i = _
        rw [List.append_assoc, List.cons_append, heq1, parseGrid_slash, heq2,
          show i + 8 + 8 * ((s' :: tl' : List (List Char)).length) =
            i + 8 * ((s :: s' :: tl' : List (List Char)).length) by
          simp [List.length_cons]; omega]
      · intro k hk
        exact bitsAgree_trans (hag1 k (by omega)) (hag2 k (by omega))
      · simp only [CellsRows]
        refine ⟨?_, hcr2⟩
        exact cellsMatch_agree s b1 b2 i
          (fun k h1 h2 => hag2 k (by rw [hs.2] at h2; omega)) hcm1

theorem parseGrid_full (segs : List (List Char))
    (hv : ∀ s ∈ segs, validSeg s = true ∧ segWeight s = 8)
    (hlen : segs.length = 8) :
    ∃ b2, Board.parseGrid (joinSlash segs) Board.new 0 = some (b2, 64) ∧
      b2.all.length = 2 ∧ b2.pieces.length = 6 ∧ CellsRows b2 0 segs := by
  obtain ⟨b2, heq, hA2, hP2, _, hcr⟩ :=
    parseGrid_segs segs [] Board.new 0 hv (by rw [hlen]) rfl rfl
      (fun k _ c => by cases c <;> simp [Board.new, Board.allAt, Color.as_index])
      (fun k _ q hq => by interval_cases q <;> simp [Board.new, Board.pieceAt])
  rw [List.append_nil] at heq
  refine ⟨b2, ?_, hA2, hP2, hcr⟩
  rw [heq, hlen]
  rfl

theorem castle_round_trip (s : List Char) (h : validCastleField s = true) :
    CastleRights.as_string (CastleRights.from_str s) = s := by
  simp only [validCastleField, decide_eq_true_eq, List.mem_cons,
    List.not_mem_nil, or_false] at h
  rcases h with rfl | rfl | rfl | rfl | rfl | rfl | rfl | rfl | rfl | rfl |
    rfl | rfl | rfl | rfl | rfl | rfl <;> decide

theorem ep_dash : Square.from_string ['-'] = some none := by decide

theorem utf8Size_ascii {c : Char} (h : c.toNat ≤ 127) : c.utf8Size = 1 := by
  unfold Char.utf8Size
  rw [if_pos]
  rw [UInt32.le_def, BitVec.le_def]
  exact h

theorem ep_round_trip (fc rc : Char)
    (hf : 'a'.toNat ≤ fc.toNat ∧ fc.toNat ≤ 'h'.toNat)
    (hr : '1'.toNat ≤ rc.toNat ∧ rc.toNat ≤ '8'.toNat) :
    ∃ sq, Square.from_string [fc, rc] = some (some sq) ∧
      Square.as_string sq = [fc, rc] := by
  have ea : 'a'.toNat = 97 := by decide
  have eh : 'h'.toNat = 104 := by decide
  have e1 : '1'.toNat = 49 := by decide
  have e8 : '8'.toNat = 56 := by decide
  have hlow : fc.toLower = fc := by
    simp only [Char.toLower]
    rw [if_neg (by omega)]
  have hu : Square.utf8Len [fc, rc] = 2 := by
    simp only [Square.utf8Len, List.foldl_cons, List.foldl_nil]
    rw [utf8Size_ascii (by omega), utf8Size_ascii (by omega)]
  refine ⟨(7 - (rc.toNat - 49)) * 8 + (fc.toNat - 97), ?_, ?_⟩
  · simp only [Square.from_string]
    rw [if_neg (by simp [hu]), hlow, if_pos ⟨hf, hr⟩]
    congr 2
  · have hfile : Square.file ((7 - (rc.toNat - 49)) * 8 + (fc.toNat - 97)) =
        fc.toNat - 97 := by
      simp only [Square.file]
      omega
    have hrank : Square.rank ((7 - (rc.toNat - 49)) * 8 + (fc.toNat - 97)) =
        rc.toNat - 49 := by
      simp only [Square.rank]
      omega
    simp only [Square.as_string, hfile, hrank, ea, e1]
    rw [show fc.toNat - 97 + 97 = fc.toNat by omega,
      show rc.toNat - 49 + 49 = rc.toNat by omega,
      Char.ofNat_toNat, Char.ofNat_toNat]

theorem decValue_le_foldl : ∀ (tl : List Char) (a : Nat),
    a ≤ tl.foldl (fun x c => x * 10 + (c.toNat - 48)) a := by
  intro tl
  induction tl with
  | nil => intro a; simp
  | cons c tl' ih =>
    intro a
    rw [List.foldl_cons]
    exact le_trans (by omega) (ih (a * 10 + (c.toNat - 48)))

theorem foldl_pow_le : ∀ (tl : List Char) (a : Nat),
    a * 10 ^ tl.length ≤ tl.foldl (fun x c => x * 10 + (c.toNat - 48)) a := by
  intro tl
  induction tl with
  | nil => intro a; simp
  | cons c tl' ih =>
    intro a
    rw [List.foldl_cons, List.length_cons]
    refine le_trans ?_ (ih (a * 10 + (c.toNat - 48)))
    rw [pow_succ]
    calc a * (10 ^ tl'.length * 10) = (a * 10) * 10 ^ tl'.length := by ring
    _ ≤ (a * 10 + (c.toNat - 48)) * 10 ^ tl'.length :=
      Nat.mul_le_mul (by omega) (le_refl _)

theorem natToDecGo_val : ∀ (ds : List Char), ds ≠ [] →
    (∀ c ∈ ds, 48 ≤ c.toNat ∧ c.toNat ≤ 57) →
    (∀ c, ds.head? = some c → 1 < ds.length → c ≠ '0') →
    ∀ f, ds.length ≤ f → natToDecGo f (decValue ds) = ds := by
  intro ds
  induction ds using List.reverseRecOn with
  | nil => intro h; exact absurd rfl h
  | append_singleton ds d ih =>
    intro _ hdig hlead f hf
    rcases ds with _ | ⟨c0, tl⟩
    · have hd := hdig d (by simp)
      have hv : decValue [d] = d.toNat - 48 := by simp [decValue]
      rcases f with _ | f'
      · simp at hf
      · simp only [List.nil_append, natToDecGo, hv]
        rw [if_pos (by omega), digitChar_toNat hd.1 hd.2]
    · have hc0 : c0 ≠ '0' := by
        refine hlead c0 (by simp) ?_
        simp [List.length_append]
      have hV1 : 1 ≤ decValue (c0 :: tl) := by
        have h48 := hdig c0 (by simp)
        have h49 : 49 ≤ c0.toNat := by
          rcases Nat.lt_or_ge c0.toNat 49 with hlt | hge
          · exact absurd (char_toNat_inj
              (show c0.toNat = Char.toNat '0' by
                rw [show Char.toNat '0' = 48 from by decide]; omega)) hc0
          · exact hge
        have hle := decValue_le_foldl tl (0 * 10 + (c0.toNat - 48))
        simp only [decValue, List.foldl_cons]
        omega
      have hsplit : decValue ((c0 :: tl) ++ [d]) =
          10 * decValue (c0 :: tl) + (d.toNat - 48) := by
        simp [decValue, List.foldl_append]
        ring
      have hd48 := hdig d (by simp)
      rcases f with _ | f'
      · simp [List.length_append] at hf
      · have hlen : (c0 :: tl).length ≤ f' := by
          simp only [List.length_append, List.length_cons,
            List.length_nil] at hf ⊢
          omega
        simp only [natToDecGo]
        rw [hsplit, if_neg (by omega),
          show (10 * decValue (c0 :: tl) + (d.toNat - 48)) / 10 =
            decValue (c0 :: tl) by omega,
          show (10 * decValue (c0 :: tl) + (d.toNat - 48)) % 10 =
            d.toNat - 48 by omega,
          ih (by simp) (fun c hc => hdig c (List.mem_append_left _ hc))
            (fun c hc hl => by
              simp only [List.head?_cons, Option.some.injEq] at hc
              rw [← hc]
              exact hc0)
            f' hlen,
          digitChar_toNat hd48.1 hd48.2]

theorem validHalf_facts (c : Char) (rest : List Char)
    (h : validHalfField (c :: rest) = true) :
    parseU16 (c :: rest) = some (decValue (c :: rest)) ∧
    natToDecimal (decValue (c :: rest)) = c :: rest := by
  simp only [validHalfField, Bool.and_eq_true] at h
  obtain ⟨⟨hall, hlead⟩, hval⟩ := h
  rw [decide_eq_true_eq] at hval
  have hdig : ∀ ch ∈ c :: rest, 48 ≤ ch.toNat ∧ ch.toNat ≤ 57 := by
    intro ch hch
    have h' := List.all_eq_true.mp hall ch hch
    rw [decide_eq_true_eq, show Char.toNat '0' = 48 from by decide,
      show Char.toNat '9' = 57 from by decide] at h'
    exact h'
  have hcplus : c ≠ '+' := by
    rintro rfl
    have h' := hdig '+' (by simp)
    revert h'
    decide
  have hlead' : ∀ ch, (c :: rest).head? = some ch →
      1 < (c :: rest).length → ch ≠ '0' := by
    intro ch hch hl
    simp only [List.head?_cons, Option.some.injEq] at hch
    rw [← hch]
    have hlead2 := hlead
    simp only [Bool.or_eq_true] at hlead2
    rcases hlead2 with h' | h'
    · exact of_decide_eq_true h'
    · exfalso
      rw [List.isEmpty_iff] at h'
      rw [h'] at hl
      simp at hl
  have hlenb : (c :: rest).length ≤ 5 := by
    by_contra hgt
    push_neg at hgt
    have hrne : rest ≠ [] := by
      rintro rfl
      simp at hgt
    have hc0 : c ≠ '0' := hlead' c rfl (by
      rcases rest with _ | _
      · exact absurd rfl hrne
      · simp)
    have h49 : 49 ≤ c.toNat := by
      have h48 := hdig c (by simp)
      rcases Nat.lt_or_ge c.toNat 49 with hlt | hge
      · exact absurd (char_toNat_inj
          (show c.toNat = Char.toNat '0' by
            rw [show Char.toNat '0' = 48 from by decide]; omega)) hc0
      · exact hge
    have hlb := foldl_pow_le rest (0 * 10 + (c.toNat - 48))
    have hpow : (10 : Nat) ^ 5 ≤ 10 ^ rest.length := by
      apply Nat.pow_le_pow_right (by omega)
      simp only [List.length_cons] at hgt
      omega
    have : decValue (c :: rest) =
        rest.foldl (fun x ch => x * 10 + (ch.toNat - 48))
          (0 * 10 + (c.toNat - 48)) := by
      simp [decValue]
    rw [this] at hval
    have h1 : 1 * 10 ^ rest.length ≤
        (0 * 10 + (c.toNat - 48)) * 10 ^ rest.length := by
      apply Nat.mul_le_mul (by omega) (le_refl _)
    omega
  refine ⟨?_, ?_⟩
  · simp only [parseU16]
    rw [show (match (c :: rest : List Char) with
        | '+' :: r => r
        | x => c :: rest) = c :: rest from by
      split
      · rename_i heq
        simp_all
      · rfl]
    rw [if_neg (by simp), if_pos hall,
      show List.foldl (fun a ch => a * 10 + (ch.toNat - 48)) 0 (c :: rest) =
        decValue (c :: rest) from rfl,
      if_pos hval]
  · exact natToDecGo_val (c :: rest) (by simp) hdig hlead' 32 (by omega)

theorem validCastle_ws (s : List Char) (h : validCastleField s = true) :
    s ≠ [] ∧ ∀ c ∈ s, c.isWhitespace = false := by
  simp only [validCastleField, decide_eq_true_eq, List.mem_cons,
    List.not_mem_nil, or_false] at h
  rcases h with rfl | rfl | rfl | rfl | rfl | rfl | rfl | rfl | rfl | rfl |
    rfl | rfl | rfl | rfl | rfl | rfl <;> exact ⟨by simp, by decide⟩

theorem validEp_cases (s : List Char) (h : validEpField s = true) :
    s = ['-'] ∨ ∃ fc rc, s = [fc, rc] ∧
      ('a'.toNat ≤ fc.toNat ∧ fc.toNat ≤ 'h'.toNat) ∧
      ('1'.toNat ≤ rc.toNat ∧ rc.toNat ≤ '8'.toNat) := by
  unfold validEpField at h
  split at h
  · left
    rfl
  · right
    rename_i fc rc
    simp only [Bool.and_eq_true, decide_eq_true_eq] at h
    exact ⟨fc, rc, rfl, h.1, h.2⟩
  · exact Bool.noConfusion h

theorem validEp_ws (s : List Char) (h : validEpField s = true) :
    s ≠ [] ∧ ∀ c ∈ s, c.isWhitespace = false := by
  rcases validEp_cases s h with rfl | ⟨fc, rc, rfl, hf, hr⟩
  · exact ⟨by simp, by decide⟩
  · refine ⟨by simp, fun c hc => ?_⟩
    have ea : 'a'.toNat = 97 := by decide
    have eh : 'h'.toNat = 104 := by decide
    have e1 : '1'.toNat = 49 := by decide
    have e8 : '8'.toNat = 56 := by decide
    rcases List.mem_cons.mp hc with rfl | hc'
    · exact not_ws_of_toNat (by omega) (by omega)
    · rcases List.mem_cons.mp hc' with rfl | hc''
      · exact not_ws_of_toNat (by omega) (by omega)
      · exact absurd hc'' (List.not_mem_nil c)

theorem validHalf_ws (s : List Char) (h : validHalfField s = true) :
    s ≠ [] ∧ ∀ c ∈ s, c.isWhitespace = false := by
  rcases s with _ | ⟨c, rest⟩
  · exact absurd h (by decide)
  · refine ⟨by simp, fun ch hch => ?_⟩
    simp only [validHalfField, Bool.and_eq_true] at h
    have h' := List.all_eq_true.mp h.1.1 ch hch
    rw [decide_eq_true_eq, show Char.toNat '0' = 48 from by decide,
      show Char.toNat '9' = 57 from by decide] at h'
    exact not_ws_of_toNat (by omega) (by omega)

theorem splitWs_fields (f1 f2 f3 f4 f5 f6 : List Char)
    (h1 : f1 ≠ []) (w1 : ∀ c ∈ f1, c.isWhitespace = false)
    (h2 : f2 ≠ []) (w2 : ∀ c ∈ f2, c.isWhitespace = false)
    (h3 : f3 ≠ []) (w3 : ∀ c ∈ f3, c.isWhitespace = false)
    (h4 : f4 ≠ []) (w4 : ∀ c ∈ f4, c.isWhitespace = false)
    (h5 : f5 ≠ []) (w5 : ∀ c ∈ f5, c.isWhitespace = false)
    (h6 : f6 ≠ []) (w6 : ∀ c ∈ f6, c.isWhitespace = false) :
    splitWs (f1 ++ ' ' :: (f2 ++ ' ' :: (f3 ++ ' ' :: (f4 ++ ' ' ::
      (f5 ++ ' ' :: f6))))) = [f1, f2, f3, f4, f5, f6] := by
  have hlast : splitWsGo (f6 ++ []) [] = [f6] := by
    rw [splitWsGo_word f6 [] [] w6, List.nil_append, splitWsGo_last f6 h6]
  rw [List.append_nil] at hlast
  unfold splitWs
  rw [splitWsGo_word f1 _ [] w1, List.nil_append, splitWsGo_space _ _ h1,
    splitWsGo_word f2 _ [] w2, List.nil_append, splitWsGo_space _ _ h2,
    splitWsGo_word f3 _ [] w3, List.nil_append, splitWsGo_space _ _ h3,
    splitWsGo_word f4 _ [] w4, List.nil_append, splitWsGo_space _ _ h4,
    splitWsGo_word f5 _ [] w5, List.nil_append, splitWsGo_space _ _ h5,
    hlast]

/-- C5: parsing a canonically valid FEN string with `Board::from_fen` and
emitting the parsed board with `Board::as_fen` reproduces the input
string, except that the emitted fullmove field is always the nominal
`" 1"` trailer regardless of the input's fullmove counter. -/
theorem fen_round_trip
    (s0 s1 s2 s3 s4 s5 s6 s7 stmF crF epF hmF fmF : List Char)
    (hseg : ∀ s ∈ [s0, s1, s2, s3, s4, s5, s6, s7],
      validSeg s = true ∧ segWeight s = 8)
    (hstm : stmF = ['w'] ∨ stmF = ['b'])
    (hcr : validCastleField crF = true)
    (hep : validEpField epF = true)
    (hhm : validHalfField hmF = true)
    (hfm : fmF ≠ []) (hfmw : ∀ c ∈ fmF, c.isWhitespace = false) :
    ∃ b, Board.from_fen (joinSlash [s0, s1, s2, s3, s4, s5, s6, s7] ++
        ' ' :: (stmF ++ ' ' :: (crF ++ ' ' :: (epF ++ ' ' ::
          (hmF ++ ' ' :: fmF))))) = some b ∧
      Board.as_fen b = some (joinSlash [s0, s1, s2, s3, s4, s5, s6, s7] ++
        ' ' :: (stmF ++ ' ' :: (crF ++ ' ' :: (epF ++ ' ' ::
          (hmF ++ ' ' :: ['1']))))) := by
  obtain ⟨stmc, col, hsf, hfc, hac⟩ :
      ∃ c col, stmF = [c] ∧ Color.from_char c = some col ∧
        Color.as_char col = c := by
    rcases hstm with rfl | rfl
    · exact ⟨'w', Color.White, rfl, by decide, rfl⟩
    · exact ⟨'b', Color.Black, rfl, by decide, rfl⟩
  subst hsf
  have hstmc : stmc = 'w' ∨ stmc = 'b' := by
    rcases hstm with h | h
    · left
      simpa using h
    · right
      simpa using h
  have hs0 := hseg s0 (by simp)
  have hgne : joinSlash [s0, s1, s2, s3, s4, s5, s6, s7] ≠ [] :=
    joinSlash_cons_ne_nil s0 _ (validSeg_ne_nil s0 hs0.1 hs0.2)
  have hgws : ∀ c ∈ joinSlash [s0, s1, s2, s3, s4, s5, s6, s7],
      c.isWhitespace = false :=
    joinSlash_not_ws _ (fun s hs => (hseg s hs).1)
  have hcrw := validCastle_ws crF hcr
  have hepw := validEp_ws epF hep
  have hhmw := validHalf_ws hmF hhm
  have hsplit := splitWs_fields (joinSlash [s0, s1, s2, s3, s4, s5, s6, s7])
    [stmc] crF epF hmF fmF hgne hgws (by simp)
    (by rcases hstmc with rfl | rfl <;> decide)
    hcrw.1 hcrw.2 hepw.1 hepw.2 hhmw.1 hhmw.2 hfm hfmw
  rcases hmF with _ | ⟨hc0, hrest⟩
  · exact absurd hhm (by decide)
  obtain ⟨hpu, hnd⟩ := validHalf_facts hc0 hrest hhm
  obtain ⟨b0, hpg, hA0, hP0, hcr0⟩ :=
    parseGrid_full [s0, s1, s2, s3, s4, s5, s6, s7] hseg rfl
  obtain ⟨epv, hepv, hepstr⟩ : ∃ o : Option Nat,
      Square.from_string epF = some o ∧
      (match o with
       | some ep => Square.as_string ep
       | none => ['-']) = epF := by
    rcases validEp_cases epF hep with rfl | ⟨fc, rc, rfl, hf, hr⟩
    · exact ⟨none, ep_dash, rfl⟩
    · obtain ⟨sq, hfs, has⟩ := ep_round_trip fc rc hf hr
      exact ⟨some sq, hfs, has⟩
  set bF : Board := { b0 with
    stm := col
    castle_rights := CastleRights.from_str crF
    ep_sq := epv
    halfmoves := decValue (hc0 :: hrest) } with hbF
  refine ⟨bF, ?_, ?_⟩
  · simp only [Board.from_fen, hsplit, hpg]
    simp only [if_true]
    simp only [hfc, hpu, hepv]
  · have hcells : CellsRows bF 0 [s0, s1, s2, s3, s4, s5, s6, s7] :=
      cellsRows_agree _ b0 bF 0
        (fun k => ⟨fun c => rfl, fun q _ => rfl⟩) hcr0
    have hgrid : Board.emitGridGo bF 8 0 =
        some (joinSlash [s0, s1, s2, s3, s4, s5, s6, s7]) := by
      have h64 : (0 : Nat) + 8 * ([s0, s1, s2, s3, s4, s5, s6, s7] :
          List (List Char)).length = 64 := by simp
      exact emitGrid_of_cells bF _ 0 h64 hseg hcells
    have hstm' : bF.stm = col := by rw [hbF]
    have hcr' : bF.castle_rights = CastleRights.from_str crF := by rw [hbF]
    have hep' : bF.ep_sq = epv := by rw [hbF]
    have hhm' : bF.halfmoves = decValue (hc0 :: hrest) := by rw [hbF]
    simp only [Board.as_fen, hgrid, hstm', hcr', hep', hhm', hac,
      castle_round_trip crF hcr, hnd]
    rw [hepstr]
    simp

/-- Witness for C5 at the start position's FEN fields (whose fullmove
field is already the nominal `1`). -/
theorem fen_round_trip_witness :
    ∃ b, Board.from_fen (joinSlash ["rnbqkbnr".toList, "pppppppp".toList,
        ['8'], ['8'], ['8'], ['8'], "PPPPPPPP".toList, "RNBQKBNR".toList] ++
        ' ' :: (['w'] ++ ' ' :: ("KQkq".toList ++ ' ' :: (['-'] ++ ' ' ::
          (['0'] ++ ' ' :: ['1']))))) = some b ∧
      Board.as_fen b = some
        (joinSlash ["rnbqkbnr".toList, "pppppppp".toList,
          ['8'], ['8'], ['8'], ['8'], "PPPPPPPP".toList, "RNBQKBNR".toList] ++
          ' ' :: (['w'] ++ ' ' :: ("KQkq".toList ++ ' ' :: (['-'] ++ ' ' ::
            (['0'] ++ ' ' :: ['1']))))) :=
  fen_round_trip "rnbqkbnr".toList "pppppppp".toList ['8'] ['8'] ['8'] ['8']
    "PPPPPPPP".toList "RNBQKBNR".toList ['w'] "KQkq".toList ['-'] ['0'] ['1']
    (by decide) (Or.inl rfl) (by decide) (by decide) (by decide)
    (by decide) (by decide)

end Duna
